import Mathlib

/-!
Verification of the interaction-net reducer for an affine lambda calculus
with labelled superposition and duplication nodes.

The development shallowly embeds the heap-based graph virtual machine
(`src/vm.rs`), the term syntax (`src/syntax.rs`), the pretty printer and
the parser pipeline (`src/parse.rs`).  Machine heaps are modelled as
association lists from addresses (`Nat`) to nodes, tagged machine words
become an inductive `Tagged` type, and every operation that would be
undefined behaviour in the source (a read or write through a dangling
pointer, a `panic!`, a failed `assert!`) is modelled by `Option.none`.
-/

namespace ICTest

/-- Variable names (the interner only provides string equality, so names
are modelled as plain character lists). -/
abbrev Name := List Char

/-- Labels on `Sup`/`Dup` nodes (`u64` in the source; only equality is
used by the reducer, so `Nat` is adequate there). -/
abbrev Label := Nat

/-- The syntactic term AST from `src/syntax.rs` (`Term`). -/
inductive Term where
  | var (x : Name)
  | lam (x : Name) (body : Term)
  | app (e1 e2 : Term)
  | sup (l : Label) (e1 e2 : Term)
  | dup (l : Label) (a b : Name) (e cont : Term)
  | letE (x : Name) (e1 e2 : Term)
deriving DecidableEq, Repr

/-- Heap addresses of allocated nodes.  Address `0` plays the role of the
null pointer (allocation starts at `1`). -/
abbrev Addr := Nat

/-- Address of a `NodeRef` field: the root cell or one of the subterm
fields of a node.  These are the fields a `Tag::VarUsePtr` may point at. -/
inductive FieldAddr where
  | root
  | lamE (n : Addr)
  | appE1 (n : Addr)
  | appE2 (n : Addr)
  | supE1 (n : Addr)
  | supE2 (n : Addr)
  | dupE (n : Addr)
deriving DecidableEq, Repr

/-- Address of a binder slot (`Lam::x`, `Dup::a`, `Dup::b`), the fields
holding a `FieldRef` (`Tag::UnusedVar` or `Tag::VarUsePtr`). -/
inductive SlotAddr where
  | lamX (n : Addr)
  | dupA (n : Addr)
  | dupB (n : Addr)
deriving DecidableEq, Repr

/-- A tagged machine word (`Tagged` in `src/vm.rs`), one constructor per
`Tag` variant.  The payload pointer is modelled structurally: a node
address for node pointers and bound-variable markers, a `FieldAddr` for
variable-use pointers. -/
inductive Tagged where
  | unusedVar
  | varUsePtr (f : FieldAddr)
  | unboundVar
  | lamBoundVar (n : Addr)
  | dupABoundVar (n : Addr)
  | dupBBoundVar (n : Addr)
  | lamPtr (n : Addr)
  | appPtr (n : Addr)
  | supPtr (n : Addr)
  | dupPtr (n : Addr)
deriving DecidableEq, Repr

/-- Contents of one heap node (`Lam`, `App`, `Sup`, `Dup` structs). -/
inductive Node where
  | lam (x e : Tagged)
  | app (e1 e2 : Tagged)
  | sup (l : Label) (e1 e2 : Tagged)
  | dup (l : Label) (a b e : Tagged)
deriving DecidableEq, Repr

/-- The heap: an association list from addresses to live nodes. -/
abbrev Heap := List (Addr × Node)

/-- Look up a node in the heap. -/
def hLookup (h : Heap) (n : Addr) : Option Node :=
  match h with
  | [] => none
  | (m, nd) :: t => if m = n then some nd else hLookup t n

/-- Overwrite the node stored at an (existing) address. -/
def hSet (h : Heap) (n : Addr) (nd : Node) : Heap :=
  h.map (fun p => if p.1 = n then (n, nd) else p)

/-- Deallocate the node at an address. -/
def hRemove (h : Heap) (n : Addr) : Heap :=
  h.filter (fun p => p.1 ≠ n)

/-- A term graph: the heap, the next fresh address, and the root cell
(`TermGraph` owns the root cell; it is treated as one more `NodeRef`
field). -/
structure Graph where
  heap : Heap
  next : Addr
  root : Tagged
deriving DecidableEq, Repr

/-- Allocate a fresh node, returning its address. -/
def allocNode (g : Graph) (nd : Node) : Graph × Addr :=
  ({ g with heap := (g.next, nd) :: g.heap, next := g.next + 1 }, g.next)

/-- Read a `NodeRef` field.  `none` models a read through a dangling or
ill-typed pointer (undefined behaviour in the source). -/
def readF (g : Graph) (f : FieldAddr) : Option Tagged :=
  match f with
  | .root => some g.root
  | .lamE n =>
    match hLookup g.heap n with
    | some (.lam _ e) => some e
    | _ => none
  | .appE1 n =>
    match hLookup g.heap n with
    | some (.app e1 _) => some e1
    | _ => none
  | .appE2 n =>
    match hLookup g.heap n with
    | some (.app _ e2) => some e2
    | _ => none
  | .supE1 n =>
    match hLookup g.heap n with
    | some (.sup _ e1 _) => some e1
    | _ => none
  | .supE2 n =>
    match hLookup g.heap n with
    | some (.sup _ _ e2) => some e2
    | _ => none
  | .dupE n =>
    match hLookup g.heap n with
    | some (.dup _ _ _ e) => some e
    | _ => none

/-- Write a `NodeRef` field.  `none` models a write through a dangling or
ill-typed pointer. -/
def writeF (g : Graph) (f : FieldAddr) (v : Tagged) : Option Graph :=
  match f with
  | .root => some { g with root := v }
  | .lamE n =>
    match hLookup g.heap n with
    | some (.lam x _) => some { g with heap := hSet g.heap n (.lam x v) }
    | _ => none
  | .appE1 n =>
    match hLookup g.heap n with
    | some (.app _ e2) => some { g with heap := hSet g.heap n (.app v e2) }
    | _ => none
  | .appE2 n =>
    match hLookup g.heap n with
    | some (.app e1 _) => some { g with heap := hSet g.heap n (.app e1 v) }
    | _ => none
  | .supE1 n =>
    match hLookup g.heap n with
    | some (.sup l _ e2) => some { g with heap := hSet g.heap n (.sup l v e2) }
    | _ => none
  | .supE2 n =>
    match hLookup g.heap n with
    | some (.sup l e1 _) => some { g with heap := hSet g.heap n (.sup l e1 v) }
    | _ => none
  | .dupE n =>
    match hLookup g.heap n with
    | some (.dup l a b _) => some { g with heap := hSet g.heap n (.dup l a b v) }
    | _ => none

/-- Read a binder slot. -/
def readS (g : Graph) (s : SlotAddr) : Option Tagged :=
  match s with
  | .lamX n =>
    match hLookup g.heap n with
    | some (.lam x _) => some x
    | _ => none
  | .dupA n =>
    match hLookup g.heap n with
    | some (.dup _ a _ _) => some a
    | _ => none
  | .dupB n =>
    match hLookup g.heap n with
    | some (.dup _ _ b _) => some b
    | _ => none

/-- Write a binder slot. -/
def writeS (g : Graph) (s : SlotAddr) (v : Tagged) : Option Graph :=
  match s with
  | .lamX n =>
    match hLookup g.heap n with
    | some (.lam _ e) => some { g with heap := hSet g.heap n (.lam v e) }
    | _ => none
  | .dupA n =>
    match hLookup g.heap n with
    | some (.dup l _ b e) => some { g with heap := hSet g.heap n (.dup l v b e) }
    | _ => none
  | .dupB n =>
    match hLookup g.heap n with
    | some (.dup l a _ e) => some { g with heap := hSet g.heap n (.dup l a v e) }
    | _ => none

/-- Deallocate a node, requiring it to be present with the expected shape
discriminator supplied by the caller (`dealloc_lam` …, whose layout must
match the allocation). -/
def deallocLam (g : Graph) (n : Addr) : Option Graph :=
  match hLookup g.heap n with
  | some (.lam _ _) => some { g with heap := hRemove g.heap n }
  | _ => none

def deallocApp (g : Graph) (n : Addr) : Option Graph :=
  match hLookup g.heap n with
  | some (.app _ _) => some { g with heap := hRemove g.heap n }
  | _ => none

def deallocSup (g : Graph) (n : Addr) : Option Graph :=
  match hLookup g.heap n with
  | some (.sup _ _ _) => some { g with heap := hRemove g.heap n }
  | _ => none

def deallocDup (g : Graph) (n : Addr) : Option Graph :=
  match hLookup g.heap n with
  | some (.dup _ _ _ _) => some { g with heap := hRemove g.heap n }
  | _ => none

/-- The raw pointer payload of a tagged word (`Tagged::ptr`), with `0`
for the null pointer carried by the sentinels. -/
def addrOfT : Tagged → Addr
  | .unusedVar => 0
  | .unboundVar => 0
  | .varUsePtr _ => 0
  | .lamBoundVar n => n
  | .dupABoundVar n => n
  | .dupBBoundVar n => n
  | .lamPtr n => n
  | .appPtr n => n
  | .supPtr n => n
  | .dupPtr n => n

/-- `Tagged::lam_bound_var`: turn a binder handle into the marker stored
at a use site.  An `UnusedVar` handle degrades to `UnboundVar`. -/
def lamBoundVarOf (t : Tagged) : Tagged :=
  match t with
  | .unusedVar => .unboundVar
  | t => .lamBoundVar (addrOfT t)

/-- `Tagged::dup_a_bound_var`. -/
def dupABoundVarOf (t : Tagged) : Tagged :=
  match t with
  | .unusedVar => .unboundVar
  | t => .dupABoundVar (addrOfT t)

/-- `Tagged::dup_b_bound_var`. -/
def dupBBoundVarOf (t : Tagged) : Tagged :=
  match t with
  | .unusedVar => .unboundVar
  | t => .dupBBoundVar (addrOfT t)

/-- `Tagged::lam_e_var_use_ptr`: a `FieldRef` to a `Lam`'s body field,
or `UnusedVar` when the node was elided (`UnboundVar`). -/
def lamEVarUseOf (t : Tagged) : Tagged :=
  match t with
  | .unboundVar => .unusedVar
  | t => .varUsePtr (.lamE (addrOfT t))

/-- `Tagged::app_e1_var_use_ptr`. -/
def appE1VarUseOf (t : Tagged) : Tagged :=
  match t with
  | .unboundVar => .unusedVar
  | t => .varUsePtr (.appE1 (addrOfT t))

/-- `Tagged::app_e2_var_use_ptr`. -/
def appE2VarUseOf (t : Tagged) : Tagged :=
  match t with
  | .unboundVar => .unusedVar
  | t => .varUsePtr (.appE2 (addrOfT t))

/-- `Tagged::sup_e1_var_use_ptr`. -/
def supE1VarUseOf (t : Tagged) : Tagged :=
  match t with
  | .unboundVar => .unusedVar
  | t => .varUsePtr (.supE1 (addrOfT t))

/-- `Tagged::sup_e2_var_use_ptr`. -/
def supE2VarUseOf (t : Tagged) : Tagged :=
  match t with
  | .unboundVar => .unusedVar
  | t => .varUsePtr (.supE2 (addrOfT t))

/-- `Tagged::dup_e_var_use_ptr`. -/
def dupEVarUseOf (t : Tagged) : Tagged :=
  match t with
  | .unboundVar => .unusedVar
  | t => .varUsePtr (.dupE (addrOfT t))

/-- `Tagged::if_bound_var_move_to`: when `v` is a bound-variable marker,
rewrite the named binder's slot to the given variable-use pointer. -/
def ifBoundVarMoveTo (v : Tagged) (use : Tagged) (g : Graph) : Option Graph :=
  match v with
  | .lamBoundVar n => writeS g (.lamX n) use
  | .dupABoundVar n => writeS g (.dupA n) use
  | .dupBBoundVar n => writeS g (.dupB n) use
  | _ => some g

/-- `Tagged::garbage_collect`: dispose of the single value `v` that has
lost its reader.  Note that for a node pointer only that one node is
deallocated; the function does not recurse into the node's children. -/
def garbageCollect (v : Tagged) (g : Graph) : Option Graph :=
  match v with
  | .unboundVar => some g
  | .lamBoundVar n => writeS g (.lamX n) .unusedVar
  | .dupABoundVar n => do
    let g ← writeS g (.dupA n) .unusedVar
    match readS g (.dupB n) with
    | some .unusedVar => deallocDup g n
    | some _ => some g
    | none => none
  | .dupBBoundVar n => do
    let g ← writeS g (.dupB n) .unusedVar
    match readS g (.dupA n) with
    | some .unusedVar => deallocDup g n
    | some _ => some g
    | none => none
  | .lamPtr n => deallocLam g n
  | .appPtr n => deallocApp g n
  | .supPtr n => deallocSup g n
  | _ => none

/-! ## Graph construction (`impl From<&Term> for TermGraph`) -/

/-- The builder's name environment: for each name, the stack of active
binder markers (`var_binders: HashMap<IStr, Vec<Tagged>>`).  Popping
leaves the (possibly empty) entry in place, exactly as the source does. -/
abbrev VB := List (Name × List Tagged)

def vbLookup (vb : VB) (x : Name) : Option (List Tagged) :=
  match vb with
  | [] => none
  | (y, s) :: t => if y = x then some s else vbLookup t x

/-- `var_binders.entry(x).or_default().push(m)`. -/
def vbPush (vb : VB) (x : Name) (m : Tagged) : VB :=
  match vbLookup vb x with
  | some _ => vb.map (fun p => if p.1 = x then (x, m :: p.2) else p)
  | none => (x, [m]) :: vb

/-- `var_binders.entry(x).or_default().pop()` (the source unwraps the
popped element; the stack is never empty at the pop sites). -/
def vbPop (vb : VB) (x : Name) : VB :=
  vb.map (fun p => if p.1 = x then (x, p.2.tail) else p)

/-- The slot named by a bound-variable marker. -/
def slotOfMarker : Tagged → Option SlotAddr
  | .lamBoundVar n => some (.lamX n)
  | .dupABoundVar n => some (.dupA n)
  | .dupBBoundVar n => some (.dupB n)
  | _ => none

/-- The recursive builder (`recurse` inside `From<&Term>`).  `none`
models a `panic!` / failed assertion.  The environment is threaded
through and returned because entries created in sub-scopes survive in
the source's `HashMap`. -/
def buildRec (vb : VB) (dst : FieldAddr) (g : Graph) : Term → Option (Graph × VB)
  | .var x =>
    match vbLookup vb x with
    | none => do
      let g ← writeF g dst .unboundVar
      pure (g, vb)
    | some stk =>
      match stk with
      | [] => none
      | m :: _ => do
        let s ← slotOfMarker m
        let v ← readS g s
        if v = .unusedVar then do
          let g ← writeS g s (.varUsePtr dst)
          let g ← writeF g dst m
          pure (g, vb)
        else none
  | .lam x body => do
    let (g, n) := allocNode g (.lam .unusedVar .unboundVar)
    let vb := vbPush vb x (.lamBoundVar n)
    let (g, vb) ← buildRec vb (.lamE n) g body
    let vb := vbPop vb x
    let g ← writeF g dst (.lamPtr n)
    pure (g, vb)
  | .app e1 e2 => do
    let (g, n) := allocNode g (.app .unboundVar .unboundVar)
    let (g, vb) ← buildRec vb (.appE1 n) g e1
    let (g, vb) ← buildRec vb (.appE2 n) g e2
    let g ← writeF g dst (.appPtr n)
    pure (g, vb)
  | .sup l e1 e2 => do
    let (g, n) := allocNode g (.sup l .unboundVar .unboundVar)
    let (g, vb) ← buildRec vb (.supE1 n) g e1
    let (g, vb) ← buildRec vb (.supE2 n) g e2
    let g ← writeF g dst (.supPtr n)
    pure (g, vb)
  | .dup l a b e cont => do
    let (g, n) := allocNode g (.dup l .unusedVar .unusedVar .unboundVar)
    if a = b then none
    else
      let vb := vbPush (vbPush vb a (.dupABoundVar n)) b (.dupBBoundVar n)
      do
        let (g, vb) ← buildRec vb (.dupE n) g e
        let (g, vb) ← buildRec vb dst g cont
        let vb := vbPop (vbPop vb b) a
        let sa ← readS g (.dupA n)
        let sb ← readS g (.dupB n)
        if sa = .unusedVar ∧ sb = .unusedVar then none
        else pure (g, vb)
  | .letE x e1 e2 => do
    let (g, nApp) := allocNode g (.app .unboundVar .unboundVar)
    let (g, nLam) := allocNode g (.lam .unusedVar .unboundVar)
    let vb := vbPush vb x (.lamBoundVar nLam)
    let (g, vb) ← buildRec vb (.appE2 nApp) g e1
    let (g, vb) ← buildRec vb (.lamE nLam) g e2
    let vb := vbPop vb x
    let g ← writeF g (.appE1 nApp) (.lamPtr nLam)
    let g ← writeF g dst (.appPtr nApp)
    pure (g, vb)

/-- The empty graph owning only its root cell (initialised to the
unbound-variable sentinel by the builder's preamble). -/
def emptyGraph : Graph := { heap := [], next := 1, root := .unboundVar }

/-- `TermGraph::from(&term)`.  `none` models a builder panic. -/
def buildTerm (t : Term) : Option Graph :=
  (buildRec [] .root emptyGraph t).map (·.1)

/-! ## Invariant checkers -/

/-- The `NodeRef` fields carried by the node at an address. -/
def nodeFields (n : Addr) : Node → List FieldAddr
  | .lam _ _ => [.lamE n]
  | .app _ _ => [.appE1 n, .appE2 n]
  | .sup _ _ _ => [.supE1 n, .supE2 n]
  | .dup _ _ _ _ => [.dupE n]

/-- The binder slots carried by the node at an address. -/
def nodeSlots (n : Addr) : Node → List SlotAddr
  | .lam _ _ => [.lamX n]
  | .app _ _ => []
  | .sup _ _ _ => []
  | .dup _ _ _ _ => [.dupA n, .dupB n]

/-- All `NodeRef` fields of the graph, the root cell included. -/
def allFields (g : Graph) : List FieldAddr :=
  .root :: g.heap.flatMap (fun p => nodeFields p.1 p.2)

/-- All binder slots of the graph. -/
def allSlots (g : Graph) : List SlotAddr :=
  g.heap.flatMap (fun p => nodeSlots p.1 p.2)

/-- The marker value that the back-pointer contract requires at the use
site of a given binder slot. -/
def markerForSlot : SlotAddr → Tagged
  | .lamX n => .lamBoundVar n
  | .dupA n => .dupABoundVar n
  | .dupB n => .dupBBoundVar n

/-- One direction of the back-pointer contract: every binder slot holding
a `VarUsePtr F` has `F` live and holding exactly the matching marker. -/
def slotBackOk (g : Graph) : Bool :=
  (allSlots g).all fun s =>
    match readS g s with
    | some (.varUsePtr f) => readF g f = some (markerForSlot s)
    | _ => true

/-- The other direction: every `NodeRef` field holding a bound-variable
marker is the slot's registered use site. -/
def fieldBackOk (g : Graph) : Bool :=
  (allFields g).all fun f =>
    match readF g f with
    | some v =>
      match slotOfMarker v with
      | some s => readS g s = some (.varUsePtr f)
      | none => true
    | none => true

/-- The back-pointer symmetry invariant (spec section 3.4 / 8.1),
checked over the whole heap plus the root cell. -/
def backPtrOk (g : Graph) : Bool :=
  slotBackOk g && fieldBackOk g

/-- No `NodeRef` field (the root cell included) holds a direct `DupPtr`:
`Dup` nodes are referenced only through their bound-variable markers. -/
def noDupPtrF (g : Graph) : Bool :=
  (allFields g).all fun f =>
    match readF g f with
    | some (.dupPtr _) => false
    | _ => true

/-! ## Redex scanner (`collect_redexes`) -/

/-- The key a scanned value contributes to the visited set.  The source
deduplicates on the raw pointer payload, so all tags naming the same
node share one key and the null-pointer sentinels share another. -/
inductive VKey where
  | vnull
  | vnode (n : Addr)
  | vfield (f : FieldAddr)
deriving DecidableEq, Repr

def vkeyOf : Tagged → VKey
  | .unusedVar => .vnull
  | .unboundVar => .vnull
  | .varUsePtr f => .vfield f
  | .lamBoundVar n => .vnode n
  | .dupABoundVar n => .vnode n
  | .dupBBoundVar n => .vnode n
  | .lamPtr n => .vnode n
  | .appPtr n => .vnode n
  | .supPtr n => .vnode n
  | .dupPtr n => .vnode n

/-- One designation of a redex value: an `App` whose `e1` holds a `Lam`
or `Sup` pointer, or a `Dup` (reached through a pointer or either
bound-variable marker) whose `e` holds a `Lam` or `Sup` pointer. -/
def isRedexField (g : Graph) (f : FieldAddr) : Bool :=
  match readF g f with
  | some (.appPtr n) =>
    match readF g (.appE1 n) with
    | some (.lamPtr _) => true
    | some (.supPtr _) => true
    | _ => false
  | some (.dupPtr n) | some (.dupABoundVar n) | some (.dupBBoundVar n) =>
    match readF g (.dupE n) with
    | some (.lamPtr _) => true
    | some (.supPtr _) => true
    | _ => false
  | _ => false

/-- The scanner's work loop.  The stack holds field addresses still to
visit; `visited` is the set of raw-pointer keys already seen; `acc`
collects the redex host fields in discovery order.  `none` models either
a read through a dangling pointer or fuel exhaustion (the source loop
always terminates on finite heaps). -/
def scanGo (g : Graph) : Nat → List FieldAddr → List VKey → List FieldAddr →
    Option (List FieldAddr)
  | 0, _, _, _ => none
  | _ + 1, [], _, acc => some acc.reverse
  | fuel + 1, f :: stack, visited, acc => do
    let v ← readF g f
    if vkeyOf v ∈ visited then scanGo g fuel stack visited acc
    else
      let visited := vkeyOf v :: visited
      match v with
      | .unusedVar | .varUsePtr _ | .unboundVar | .lamBoundVar _ =>
        scanGo g fuel stack visited acc
      | .lamPtr n => scanGo g fuel (.lamE n :: stack) visited acc
      | .appPtr n => do
        let e1 ← readF g (.appE1 n)
        let acc :=
          match e1 with
          | .lamPtr _ => f :: acc
          | .supPtr _ => f :: acc
          | _ => acc
        scanGo g fuel (.appE2 n :: .appE1 n :: stack) visited acc
      | .supPtr n => scanGo g fuel (.supE2 n :: .supE1 n :: stack) visited acc
      | .dupABoundVar n | .dupBBoundVar n | .dupPtr n => do
        let e ← readF g (.dupE n)
        let acc :=
          match e with
          | .lamPtr _ => f :: acc
          | .supPtr _ => f :: acc
          | _ => acc
        scanGo g fuel (.dupE n :: stack) visited acc

/-- Fuel that certainly outlasts the loop on the given heap: each
iteration pops one stack entry, and at most two entries are pushed per
newly visited key. -/
def scanFuel (g : Graph) : Nat := 8 * (g.heap.length + 2) + 8

/-- `collect_redexes`, scanning from the root cell. -/
def collectRedexes (g : Graph) : Option (List FieldAddr) :=
  scanGo g (scanFuel g) [.root] [] []

/-! ## The four rewrite rules -/

/-- The substitution `x <- v` of spec section 4.2 for an already
existing value `v`: if the binder slot is unused the value is handed to
`garbage_collect`; otherwise the slot's registered occurrence field is
overwritten with `v` and, when `v` is itself a bound-variable marker,
its binder's slot is retargeted to that field. -/
def substMove (g : Graph) (slot v : Tagged) : Option Graph :=
  if slot = .unusedVar then garbageCollect v g
  else
    match slot with
    | .varUsePtr f => do
      let g ← writeF g f v
      ifBoundVarMoveTo v slot g
    | _ => none

/-- The substitution `x <- v` where `v` is a conditionally allocated
fresh node (`t` as produced by `allocLamIfUsed`/`allocSupIfUsed`): when
the binder slot is used, the occurrence field receives the fresh pointer
and the fresh node's contents are written. -/
def substBinder (g : Graph) (slot t : Tagged) (nd : Node) : Option Graph :=
  if slot = .unusedVar then pure g
  else
    match slot with
    | .varUsePtr f => do
      let g ← writeF g f t
      pure { g with heap := hSet g.heap (addrOfT t) nd }
    | _ => none

/-- `rule_app_lam`: `(λx e) e2  ⇒  x <- e2; e`.  `host` is the field
holding the `App`; `nApp`/`nLam` are the redex nodes. -/
def ruleAppLam (g : Graph) (host : FieldAddr) (nApp nLam : Addr) : Option Graph := do
  -- x <- e2
  let xUse ← readS g (.lamX nLam)
  let e2 ← readF g (.appE2 nApp)
  let g ← substMove g xUse e2
  -- e
  let e ← readF g (.lamE nLam)
  let g ← writeF g host e
  let g ← ifBoundVarMoveTo e (.varUsePtr host) g
  -- deallocate unreachable nodes
  let g ← deallocApp g nApp
  deallocLam g nLam

/-- `rule_app_sup`: `(#l{e1 e2}) e3 ⇒ dup #l{a b} = e3; #l{(e1 a) (e2 b)}`. -/
def ruleAppSup (g : Graph) (host : FieldAddr) (nApp nSup : Addr) : Option Graph := do
  match hLookup g.heap nSup with
  | some (.sup l _ _) =>
    let (g, nDup) := allocNode g (.dup 0 .unusedVar .unusedVar .unusedVar)
    let (g, nA1) := allocNode g (.app .unusedVar .unusedVar)
    let (g, nA2) := allocNode g (.app .unusedVar .unusedVar)
    let (g, nT) := allocNode g (.sup 0 .unusedVar .unusedVar)
    -- dup #l{a b} = e3
    let a := appE2VarUseOf (.appPtr nA1)
    let b := appE2VarUseOf (.appPtr nA2)
    let e3 ← readF g (.appE2 nApp)
    let g := { g with heap := hSet g.heap nDup (.dup l a b e3) }
    let g ← ifBoundVarMoveTo e3 (dupEVarUseOf (.dupPtr nDup)) g
    -- (e1 a)
    let e1 ← readF g (.supE1 nSup)
    let a2 := dupABoundVarOf (.dupPtr nDup)
    let g := { g with heap := hSet g.heap nA1 (.app e1 a2) }
    let g ← ifBoundVarMoveTo e1 (appE1VarUseOf (.appPtr nA1)) g
    -- (e2 b)
    let e2 ← readF g (.supE2 nSup)
    let b2 := dupBBoundVarOf (.dupPtr nDup)
    let g := { g with heap := hSet g.heap nA2 (.app e2 b2) }
    let g ← ifBoundVarMoveTo e2 (appE1VarUseOf (.appPtr nA2)) g
    -- #l{(e1 a) (e2 b)}
    let g := { g with heap := hSet g.heap nT (.sup l (.appPtr nA1) (.appPtr nA2)) }
    let g ← writeF g host (.supPtr nT)
    -- deallocate unreachable nodes
    let g ← deallocApp g nApp
    deallocSup g nSup
  | _ => none

/-- The `if slot unused then new_unbound_var else Lam::alloc()` idiom of
`rule_dup_lam`. -/
def allocLamIfUsed (g : Graph) (slot : Tagged) : Graph × Tagged :=
  if slot = .unusedVar then (g, .unboundVar)
  else
    let (g, n) := allocNode g (.lam .unusedVar .unusedVar)
    (g, .lamPtr n)

/-- The corresponding conditional `Sup::alloc()` idiom of `rule_dup_lam`
and `rule_dup_sup`. -/
def allocSupIfUsed (g : Graph) (slot : Tagged) : Graph × Tagged :=
  if slot = .unusedVar then (g, .unboundVar)
  else
    let (g, n) := allocNode g (.sup 0 .unusedVar .unusedVar)
    (g, .supPtr n)

/-- `rule_dup_lam`:
`dup #l{a b} = (λx e) ⇒ a <- (λx1 c); b <- (λx2 d); x <- #l{x1 x2};
dup #l{c d} = e`.  Nodes for unused binders are elided. -/
def ruleDupLam (g : Graph) (nDup nLam : Addr) : Option Graph := do
  match hLookup g.heap nDup with
  | some (.dup l dupA dupB _) => do
    let lamX ← readS g (.lamX nLam)
    let (g, t1) := allocLamIfUsed g dupA
    let (g, t2) := allocLamIfUsed g dupB
    let (g, t3) := allocSupIfUsed g lamX
    let (g, nDup2) := allocNode g (.dup 0 .unusedVar .unusedVar .unusedVar)
    -- a <- (λx1 c)
    let g ← substBinder g dupA t1
      (.lam (supE1VarUseOf t3) (dupABoundVarOf (.dupPtr nDup2)))
    -- b <- (λx2 d)
    let g ← substBinder g dupB t2
      (.lam (supE2VarUseOf t3) (dupBBoundVarOf (.dupPtr nDup2)))
    -- x <- #l{x1 x2}
    let g ← substBinder g lamX t3
      (.sup l (lamBoundVarOf t1) (lamBoundVarOf t2))
    -- dup #l{c d} = e
    let e ← readF g (.lamE nLam)
    let c := lamEVarUseOf t1
    let d := lamEVarUseOf t2
    let g := { g with heap := hSet g.heap nDup2 (.dup l c d e) }
    let g ← ifBoundVarMoveTo e (dupEVarUseOf (.dupPtr nDup2)) g
    -- deallocate unreachable nodes
    let g ← deallocDup g nDup
    deallocLam g nLam
  | _ => none

/-- `rule_dup_sup`, both the same-label and the different-label case. -/
def ruleDupSup (g : Graph) (nDup nSup : Addr) : Option Graph := do
  match hLookup g.heap nDup, hLookup g.heap nSup with
  | some (.dup l dupA dupB _), some (.sup m _ _) => do
    let g ←
      if l = m then do
        -- a <- e1
        let e1 ← readF g (.supE1 nSup)
        let g ← substMove g dupA e1
        -- b <- e2
        let e2 ← readF g (.supE2 nSup)
        substMove g dupB e2
      else do
        let (g, ta) := allocSupIfUsed g dupA
        let (g, tb) := allocSupIfUsed g dupB
        let (g, nD1) := allocNode g (.dup 0 .unusedVar .unusedVar .unusedVar)
        let (g, nD2) := allocNode g (.dup 0 .unusedVar .unusedVar .unusedVar)
        -- a <- #m{a1 a2}
        let g ← substBinder g dupA ta
          (.sup m (dupABoundVarOf (.dupPtr nD1)) (dupABoundVarOf (.dupPtr nD2)))
        -- b <- #m{b1 b2}
        let g ← substBinder g dupB tb
          (.sup m (dupBBoundVarOf (.dupPtr nD1)) (dupBBoundVarOf (.dupPtr nD2)))
        -- dup #l{a1 b1} = e1
        let e1 ← readF g (.supE1 nSup)
        let nd1 := Node.dup l (supE1VarUseOf ta) (supE1VarUseOf tb) e1
        let g := { g with heap := hSet g.heap nD1 nd1 }
        let g ← ifBoundVarMoveTo e1 (dupEVarUseOf (.dupPtr nD1)) g
        -- dup #l{a2 b2} = e2
        let e2 ← readF g (.supE2 nSup)
        let nd2 := Node.dup l (supE2VarUseOf ta) (supE2VarUseOf tb) e2
        let g := { g with heap := hSet g.heap nD2 nd2 }
        ifBoundVarMoveTo e2 (dupEVarUseOf (.dupPtr nD2)) g
    -- deallocate unreachable nodes
    let g ← deallocDup g nDup
    deallocSup g nSup
  | _, _ => none

/-- `reduce_redex`: dispatch on the value in the redex host field. -/
def reduceRedex (g : Graph) (host : FieldAddr) : Option Graph := do
  let v ← readF g host
  match v with
  | .appPtr nApp => do
    let e1 ← readF g (.appE1 nApp)
    match e1 with
    | .lamPtr n => ruleAppLam g host nApp n
    | .supPtr n => ruleAppSup g host nApp n
    | _ => none
  | .dupABoundVar nDup | .dupBBoundVar nDup | .dupPtr nDup => do
    let e ← readF g (.dupE nDup)
    match e with
    | .lamPtr n => ruleDupLam g nDup n
    | .supPtr n => ruleDupSup g nDup n
    | _ => none
  | _ => none

/-- `naive_reduce_step`: collect the redexes and reduce the first one,
returning whether any work was done. -/
def naiveReduceStep (g : Graph) : Option (Bool × Graph) := do
  let redexes ← collectRedexes g
  match redexes with
  | [] => pure (false, g)
  | r :: _ => do
    let g ← reduceRedex g r
    pure (true, g)

/-! ## Concrete scenario graphs -/

/-- `(λy ((λx z) (y c)))`: an `AppLam` redex whose argument subterm
`(y c)` contains the sole occurrence of the still-live binder `y`, while
the lambda `λx z` discards its argument. -/
def tGcDangling : Term :=
  .lam ['y'] (.app (.lam ['x'] (.var ['z'])) (.app (.var ['y']) (.var ['c'])))

/-- `((λx z) ((a b) c))`: an `AppLam` redex discarding a two-node
application subterm. -/
def tGcLeak : Term :=
  .app (.lam ['x'] (.var ['z'])) (.app (.app (.var ['a']) (.var ['b'])) (.var ['c']))

/-- `((λx x) x)`: the final `x` occurs after the binder scope for `x`
has been opened and closed, so its name has an (empty) entry in the
builder's environment. -/
def tFreeAfterScope : Term :=
  .app (.lam ['x'] (.var ['x'])) (.var ['x'])

/-- `((λx x) y)`: `y` is never bound anywhere. -/
def tFreeUnbound : Term :=
  .app (.lam ['x'] (.var ['x'])) (.var ['y'])

/-- `dup #0{a b} = (λy y); #0{a b}`: both occurrence fields of the
`Sup` hold markers of the same `Dup`, which is a `DupLam` redex. -/
def tSharedDup : Term :=
  .dup 0 ['a'] ['b'] (.lam ['y'] (.var ['y'])) (.sup 0 (.var ['a']) (.var ['b']))

/-- `(λy (dup #0{a b} = #0{y z}; (a b)))`: a same-label `DupSup` redex
whose first moved child is the bound-variable marker of the outer `λy`. -/
def tDupSupMark : Term :=
  .lam ['y'] (.dup 0 ['a'] ['b'] (.sup 0 (.var ['y']) (.var ['z']))
    (.app (.var ['a']) (.var ['b'])))

/-- `dup #0{a b} = z; w`: affine (no variable occurs twice) but both
`Dup` binders are unused. -/
def tDupBothDead : Term :=
  .dup 0 ['a'] ['b'] (.var ['z']) (.var ['w'])

/-- `(λx (x x))`: a doubly used binder. -/
def tNonAffine : Term :=
  .lam ['x'] (.app (.var ['x']) (.var ['x']))

def gDangling : Graph := (buildTerm tGcDangling).getD emptyGraph

def gDangling1 : Graph :=
  ((naiveReduceStep gDangling).map (·.2)).getD emptyGraph

def gLeak : Graph := (buildTerm tGcLeak).getD emptyGraph

def gLeak1 : Graph := ((naiveReduceStep gLeak).map (·.2)).getD emptyGraph

def gShared : Graph := (buildTerm tSharedDup).getD emptyGraph

def gMark : Graph := (buildTerm tDupSupMark).getD emptyGraph

def gMark1 : Graph := ((naiveReduceStep gMark).map (·.2)).getD emptyGraph

/-- C1.  The back-pointer symmetry invariant holds after building
`(λy ((λx z) (y c)))` but is broken by the very first rewrite: the
`AppLam` rule discards the subterm `(y c)` through `garbage_collect`,
which deallocates only the `App` node of `(y c)` without resetting the
binder slot of `λy`, leaving `Lam.x` targeting a field of a deallocated
node.  So the invariant does not survive every rewrite. -/
theorem c1_backptr_broken_by_gc :
    buildTerm tGcDangling = some gDangling ∧
    backPtrOk gDangling = true ∧
    naiveReduceStep gDangling = some (true, gDangling1) ∧
    backPtrOk gDangling1 = false := by
  refine ⟨by decide, by decide, by decide, by decide⟩

/-- C5.  Reducing `((λx z) ((a b) c))` discards the argument
`((a b) c)`, yet `garbage_collect` deallocates only its root `App`
(node 3): the inner `App` node 4 stays allocated in the heap even
though it is unreachable, so the discarded subgraph is not recursively
deallocated. -/
theorem c5_gc_not_recursive :
    buildTerm tGcLeak = some gLeak ∧
    hLookup gLeak.heap 3 = some (.app (.appPtr 4) .unboundVar) ∧
    naiveReduceStep gLeak = some (true, gLeak1) ∧
    hLookup gLeak1.heap 3 = none ∧
    hLookup gLeak1.heap 4 = some (.app .unboundVar .unboundVar) ∧
    gLeak1.root = .unboundVar := by
  refine ⟨by decide, by decide, by decide, by decide, by decide, by decide⟩

/-- C6.  Building `((λx x) x)` panics: the last `x` has no active
binder, but its name still has an (empty) binder stack in the
environment, and the builder unwraps the missing top instead of writing
the unbound-variable marker.  A name that never had a binder does get
the unbound marker and construction succeeds. -/
theorem c6_free_var_after_closed_scope_panics :
    buildTerm tFreeAfterScope = none ∧
    (buildTerm tFreeUnbound).map (fun g => readF g (.appE2 1)) =
      some (some .unboundVar) := by
  refine ⟨by decide, by decide⟩

/-- C4, counterexample.  In the graph of
`dup #0{a b} = (λy y); #0{a b}` both `Sup` children are redex sites for
the same `Dup` node, but the scan deduplicates by node address and
returns only the first-visited field: `Sup.e1` matches the redex
predicate yet is not in the returned set, so the returned set is not
exactly the set of matching fields. -/
theorem c4_scan_counterexample :
    buildTerm tSharedDup = some gShared ∧
    collectRedexes gShared = some [.supE2 3] ∧
    isRedexField gShared (.supE1 3) = true ∧
    FieldAddr.supE1 3 ∉ [FieldAddr.supE2 3] := by
  refine ⟨by decide, by decide, by decide, by decide⟩

/-- C7, counterexample.  Applying the same-label `DupSup` rule in
`(λy (dup #0{a b} = #0{y z}; (a b)))` moves the marker of `λy` into the
occurrence field of `a`; doing so retargets the binder slot of node 1
(the `λy`, which is neither the consumed `Dup`/`Sup` pair nor one of the
two occurrence fields), so a field of an unrelated node changes. -/
theorem c7_frame_counterexample :
    buildTerm tDupSupMark = some gMark ∧
    readF gMark (.dupE 2) = some (.supPtr 3) ∧
    hLookup gMark.heap 1 = some (.lam (.varUsePtr (.supE1 3)) (.appPtr 4)) ∧
    naiveReduceStep gMark = some (true, gMark1) ∧
    hLookup gMark1.heap 1 = some (.lam (.varUsePtr (.appE1 4)) (.appPtr 4)) := by
  refine ⟨by decide, by decide, by decide, by decide, by decide⟩

/-! ## Tagged-pointer bit packing (`Tagged::new` / `ptr` / `tag`) -/

/-- The `Tag` enumeration with its `repr(u8)` discriminants. -/
inductive TagB where
  | unusedVar
  | varUsePtr
  | unboundVar
  | lamBoundVar
  | dupABoundVar
  | dupBBoundVar
  | lamPtr
  | appPtr
  | supPtr
  | dupPtr
deriving DecidableEq, Repr

/-- The numeric discriminant of a tag (`UnusedVar = 1` … `DupPtr = 10`). -/
def TagB.toNat : TagB → Nat
  | .unusedVar => 1
  | .varUsePtr => 2
  | .unboundVar => 3
  | .lamBoundVar => 4
  | .dupABoundVar => 5
  | .dupBBoundVar => 6
  | .lamPtr => 7
  | .appPtr => 8
  | .supPtr => 9
  | .dupPtr => 10

/-- `Tag::BIT_OFFSET`. -/
def tagBitOffset : Nat := 60

/-- `Tagged::new(ptr, tag)`: `((tag as u64) << BIT_OFFSET) | (ptr as u64)`
in `u64` arithmetic. -/
def taggedNewBits (p t : Nat) : Nat :=
  ((t <<< tagBitOffset) ||| p) % 2 ^ 64

/-- `Tagged::ptr`: `value & !Tag::MASK`, i.e. keep the low 60 bits. -/
def taggedPtrBits (v : Nat) : Nat :=
  v &&& (2 ^ 60 - 1)

/-- `Tagged::tag`: `(value >> BIT_OFFSET) as u8` (the transmute back to
the enum keeps the numeric value). -/
def taggedTagBits (v : Nat) : Nat :=
  (v >>> tagBitOffset) % 2 ^ 8

lemma testBit_false_of_lt_le {x i j : Nat} (h : x < 2 ^ i) (hij : i ≤ j) :
    x.testBit j = false :=
  Nat.testBit_lt_two_pow (lt_of_lt_of_le h (Nat.pow_le_pow_right (by norm_num) hij))

/-- C10.  For every pointer whose top four bits are zero and every tag
of the enumeration, packing with `Tagged::new` and projecting with
`Tagged::ptr` / `Tagged::tag` recovers the original pointer and tag. -/
theorem c10_tagged_roundtrip (p : Nat) (hp : p < 2 ^ 60) (t : TagB) :
    taggedPtrBits (taggedNewBits p t.toNat) = p ∧
    taggedTagBits (taggedNewBits p t.toNat) = t.toNat := by
  have ht : t.toNat < 2 ^ 4 := by cases t <;> simp [TagB.toNat]
  constructor
  · apply Nat.eq_of_testBit_eq
    intro i
    simp only [taggedPtrBits, taggedNewBits, tagBitOffset, Nat.testBit_land,
      Nat.testBit_mod_two_pow, Nat.testBit_lor, Nat.testBit_shiftLeft,
      Nat.testBit_two_pow_sub_one]
    by_cases hi : i < 60
    · have h64 : i < 64 := by omega
      have hge : ¬ (i ≥ 60) := by omega
      simp [hi, h64, hge]
    · have hpi : p.testBit i = false := testBit_false_of_lt_le hp (by omega)
      simp [hi, hpi]
  · apply Nat.eq_of_testBit_eq
    intro j
    simp only [taggedTagBits, taggedNewBits, tagBitOffset,
      Nat.testBit_mod_two_pow, Nat.testBit_shiftRight, Nat.testBit_lor,
      Nat.testBit_shiftLeft]
    by_cases hj : j < 4
    · have h8 : j < 8 := by omega
      have h64 : 60 + j < 64 := by omega
      have hge : 60 + j ≥ 60 := by omega
      have hpj : p.testBit (60 + j) = false := testBit_false_of_lt_le hp (by omega)
      simp [h8, h64, hge, hpj]
    · have htj : t.toNat.testBit j = false := testBit_false_of_lt_le ht (by omega)
      by_cases h8 : j < 8
      · have h64 : ¬ (60 + j < 64) := by omega
        simp [h8, h64, htj]
      · simp [h8, htj]
  
/-- Witness for C10 at pointer `8` and tag `AppPtr`. -/
theorem c10_tagged_roundtrip_witness :
    taggedPtrBits (taggedNewBits 8 TagB.appPtr.toNat) = 8 ∧
    taggedTagBits (taggedNewBits 8 TagB.appPtr.toNat) = TagB.appPtr.toNat :=
  c10_tagged_roundtrip 8 (by norm_num) TagB.appPtr

/-! ## Heap and field/slot access lemmas -/

lemma hLookup_hSet (n : Addr) (nd : Node) (m : Addr) :
    ∀ h : Heap, hLookup (hSet h n nd) m =
      if m = n then (hLookup h n).map (fun _ => nd) else hLookup h m
  | [] => by simp [hLookup, hSet]
  | (k, v) :: t => by
    by_cases hk : k = n
    · subst hk
      have hs : hSet ((k, v) :: t) k nd = (k, nd) :: hSet t k nd := by
        simp [hSet]
      rw [hs]
      by_cases hm : k = m
      · subst hm
        simp [hLookup]
      · have hm' : ¬ m = k := fun h => hm h.symm
        simp [hLookup, hm, hm', hLookup_hSet k nd m t]
    · have hs : hSet ((k, v) :: t) n nd = (k, v) :: hSet t n nd := by
        simp [hSet, hk]
      rw [hs]
      by_cases hm : k = m
      · subst hm
        simp [hLookup, hk, hLookup_hSet n nd k t]
      · simp [hLookup, hm, hk, hLookup_hSet n nd m t]

lemma hLookup_hRemove (n m : Addr) :
    ∀ h : Heap, hLookup (hRemove h n) m = if m = n then none else hLookup h m
  | [] => by simp [hLookup, hRemove]
  | (k, v) :: t => by
    by_cases hk : k = n
    · subst hk
      have hs : hRemove ((k, v) :: t) k = hRemove t k := by
        simp [hRemove]
      rw [hs]
      by_cases hm : m = k
      · subst hm
        simp [hLookup_hRemove m m t]
      · have hm' : ¬ k = m := fun h => hm h.symm
        simp [hLookup_hRemove k m t, hm, hm', hLookup]
    · have hs : hRemove ((k, v) :: t) n = (k, v) :: hRemove t n := by
        simp [hRemove, hk]
      rw [hs]
      by_cases hm : k = m
      · subst hm
        simp [hLookup, hk]
      · simp [hLookup, hm, hLookup_hRemove n m t]

/-- The node address a field lives on (`none` for the root cell). -/
def faddr : FieldAddr → Option Addr
  | .root => none
  | .lamE n => some n
  | .appE1 n => some n
  | .appE2 n => some n
  | .supE1 n => some n
  | .supE2 n => some n
  | .dupE n => some n

/-- The node address a binder slot lives on. -/
def saddr : SlotAddr → Addr
  | .lamX n => n
  | .dupA n => n
  | .dupB n => n

lemma readF_writeF {g g' : Graph} {f : FieldAddr} {v : Tagged}
    (h : writeF g f v = some g') (f' : FieldAddr) :
    readF g' f' = if f' = f then some v else readF g f' := by
  cases f <;> simp only [writeF] at h
  case root =>
    obtain rfl : { g with root := v } = g' := by injection h
    cases f' <;> simp [readF]
  case lamE n =>
    split at h
    case _ x e heq =>
      obtain rfl : { g with heap := hSet g.heap n (.lam x v) } = g' := by injection h
      cases f' <;>
        · simp only [readF, hLookup_hSet]
          split_ifs <;> simp_all [readF, heq]
    all_goals exact absurd h (by simp)
  case appE1 n =>
    split at h
    case _ e1 e2 heq =>
      obtain rfl : { g with heap := hSet g.heap n (.app v e2) } = g' := by injection h
      cases f' <;>
        · simp only [readF, hLookup_hSet]
          split_ifs <;> simp_all [readF, heq]
    all_goals exact absurd h (by simp)
  case appE2 n =>
    split at h
    case _ e1 e2 heq =>
      obtain rfl : { g with heap := hSet g.heap n (.app e1 v) } = g' := by injection h
      cases f' <;>
        · simp only [readF, hLookup_hSet]
          split_ifs <;> simp_all [readF, heq]
    all_goals exact absurd h (by simp)
  case supE1 n =>
    split at h
    case _ l e1 e2 heq =>
      obtain rfl : { g with heap := hSet g.heap n (.sup l v e2) } = g' := by injection h
      cases f' <;>
        · simp only [readF, hLookup_hSet]
          split_ifs <;> simp_all [readF, heq]
    all_goals exact absurd h (by simp)
  case supE2 n =>
    split at h
    case _ l e1 e2 heq =>
      obtain rfl : { g with heap := hSet g.heap n (.sup l e1 v) } = g' := by injection h
      cases f' <;>
        · simp only [readF, hLookup_hSet]
          split_ifs <;> simp_all [readF, heq]
    all_goals exact absurd h (by simp)
  case dupE n =>
    split at h
    case _ l a b e heq =>
      obtain rfl : { g with heap := hSet g.heap n (.dup l a b v) } = g' := by injection h
      cases f' <;>
        · simp only [readF, hLookup_hSet]
          split_ifs <;> simp_all [readF, heq]
    all_goals exact absurd h (by simp)

lemma readF_writeF_self {g g' : Graph} {f : FieldAddr} {v : Tagged}
    (h : writeF g f v = some g') : readF g' f = some v := by
  rw [readF_writeF h f, if_pos rfl]

lemma readF_writeF_other {g g' : Graph} {f : FieldAddr} {v : Tagged}
    (h : writeF g f v = some g') {f' : FieldAddr} (hne : f' ≠ f) :
    readF g' f' = readF g f' := by
  rw [readF_writeF h f', if_neg hne]

lemma readS_writeS {g g' : Graph} {s : SlotAddr} {v : Tagged}
    (h : writeS g s v = some g') (s' : SlotAddr) :
    readS g' s' = if s' = s then some v else readS g s' := by
  cases s <;> simp only [writeS] at h
  case lamX n =>
    split at h
    case _ x e heq =>
      obtain rfl : { g with heap := hSet g.heap n (.lam v e) } = g' := by injection h
      cases s' <;>
        · simp only [readS, hLookup_hSet]
          split_ifs <;> simp_all [readS, heq]
    all_goals exact absurd h (by simp)
  case dupA n =>
    split at h
    case _ l a b e heq =>
      obtain rfl : { g with heap := hSet g.heap n (.dup l v b e) } = g' := by injection h
      cases s' <;>
        · simp only [readS, hLookup_hSet]
          split_ifs <;> simp_all [readS, heq]
    all_goals exact absurd h (by simp)
  case dupB n =>
    split at h
    case _ l a b e heq =>
      obtain rfl : { g with heap := hSet g.heap n (.dup l a v e) } = g' := by injection h
      cases s' <;>
        · simp only [readS, hLookup_hSet]
          split_ifs <;> simp_all [readS, heq]
    all_goals exact absurd h (by simp)

lemma readS_writeS_self {g g' : Graph} {s : SlotAddr} {v : Tagged}
    (h : writeS g s v = some g') : readS g' s = some v := by
  rw [readS_writeS h s, if_pos rfl]

lemma readS_writeS_other {g g' : Graph} {s : SlotAddr} {v : Tagged}
    (h : writeS g s v = some g') {s' : SlotAddr} (hne : s' ≠ s) :
    readS g' s' = readS g s' := by
  rw [readS_writeS h s', if_neg hne]

lemma readF_writeS {g g' : Graph} {s : SlotAddr} {v : Tagged}
    (h : writeS g s v = some g') (f : FieldAddr) : readF g' f = readF g f := by
  cases s <;> simp only [writeS] at h
  case lamX n =>
    split at h
    case _ x e heq =>
      obtain rfl : { g with heap := hSet g.heap n (.lam v e) } = g' := by injection h
      cases f <;> simp only [readF, hLookup_hSet] <;> (try split_ifs) <;>
        simp_all [readF, heq]
    all_goals exact absurd h (by simp)
  case dupA n =>
    split at h
    case _ l a b e heq =>
      obtain rfl : { g with heap := hSet g.heap n (.dup l v b e) } = g' := by injection h
      cases f <;> simp only [readF, hLookup_hSet] <;> (try split_ifs) <;>
        simp_all [readF, heq]
    all_goals exact absurd h (by simp)
  case dupB n =>
    split at h
    case _ l a b e heq =>
      obtain rfl : { g with heap := hSet g.heap n (.dup l a v e) } = g' := by injection h
      cases f <;> simp only [readF, hLookup_hSet] <;> (try split_ifs) <;>
        simp_all [readF, heq]
    all_goals exact absurd h (by simp)

lemma readS_writeF {g g' : Graph} {f : FieldAddr} {v : Tagged}
    (h : writeF g f v = some g') (s : SlotAddr) : readS g' s = readS g s := by
  cases f <;> simp only [writeF] at h
  case root =>
    obtain rfl : { g with root := v } = g' := by injection h
    cases s <;> simp [readS]
  case lamE n =>
    split at h
    case _ x e heq =>
      obtain rfl : { g with heap := hSet g.heap n (.lam x v) } = g' := by injection h
      cases s <;>
        · simp only [readS, hLookup_hSet]
          split_ifs <;> simp_all [readS, heq]
    all_goals exact absurd h (by simp)
  case appE1 n =>
    split at h
    case _ e1 e2 heq =>
      obtain rfl : { g with heap := hSet g.heap n (.app v e2) } = g' := by injection h
      cases s <;>
        · simp only [readS, hLookup_hSet]
          split_ifs <;> simp_all [readS, heq]
    all_goals exact absurd h (by simp)
  case appE2 n =>
    split at h
    case _ e1 e2 heq =>
      obtain rfl : { g with heap := hSet g.heap n (.app e1 v) } = g' := by injection h
      cases s <;>
        · simp only [readS, hLookup_hSet]
          split_ifs <;> simp_all [readS, heq]
    all_goals exact absurd h (by simp)
  case supE1 n =>
    split at h
    case _ l e1 e2 heq =>
      obtain rfl : { g with heap := hSet g.heap n (.sup l v e2) } = g' := by injection h
      cases s <;>
        · simp only [readS, hLookup_hSet]
          split_ifs <;> simp_all [readS, heq]
    all_goals exact absurd h (by simp)
  case supE2 n =>
    split at h
    case _ l e1 e2 heq =>
      obtain rfl : { g with heap := hSet g.heap n (.sup l e1 v) } = g' := by injection h
      cases s <;>
        · simp only [readS, hLookup_hSet]
          split_ifs <;> simp_all [readS, heq]
    all_goals exact absurd h (by simp)
  case dupE n =>
    split at h
    case _ l a b e heq =>
      obtain rfl : { g with heap := hSet g.heap n (.dup l a b v) } = g' := by injection h
      cases s <;>
        · simp only [readS, hLookup_hSet]
          split_ifs <;> simp_all [readS, heq]
    all_goals exact absurd h (by simp)

lemma writeF_next {g g' : Graph} {f : FieldAddr} {v : Tagged}
    (h : writeF g f v = some g') : g'.next = g.next := by
  cases f <;> simp only [writeF] at h <;>
    first
    | (obtain rfl : _ = g' := by injection h
       rfl)
    | (split at h
       · obtain rfl : _ = g' := by injection h
         rfl
       · exact absurd h (by simp))

lemma writeS_next {g g' : Graph} {s : SlotAddr} {v : Tagged}
    (h : writeS g s v = some g') : g'.next = g.next := by
  cases s <;> simp only [writeS] at h <;>
    (split at h
     · obtain rfl : _ = g' := by injection h
       rfl
     · exact absurd h (by simp))

/-- Node kind discriminator (for preservation of allocation layout). -/
inductive NKind where
  | lam
  | app
  | sup
  | dup
deriving DecidableEq, Repr

def nodeKind : Node → NKind
  | .lam _ _ => .lam
  | .app _ _ => .app
  | .sup _ _ _ => .sup
  | .dup _ _ _ _ => .dup

def kindAt (g : Graph) (n : Addr) : Option NKind :=
  (hLookup g.heap n).map nodeKind

lemma kindAt_writeF {g g' : Graph} {f : FieldAddr} {v : Tagged}
    (h : writeF g f v = some g') (n : Addr) : kindAt g' n = kindAt g n := by
  cases f <;> simp only [writeF] at h
  case root =>
    obtain rfl : { g with root := v } = g' := by injection h
    rfl
  all_goals
    (split at h
     · obtain rfl : _ = g' := by injection h
       rename_i heq
       simp only [kindAt, hLookup_hSet]
       split_ifs with hn
       · subst hn
         simp [heq, nodeKind]
       · rfl
     · exact absurd h (by simp))

lemma kindAt_writeS {g g' : Graph} {s : SlotAddr} {v : Tagged}
    (h : writeS g s v = some g') (n : Addr) : kindAt g' n = kindAt g n := by
  cases s <;> simp only [writeS] at h <;>
    (split at h
     · obtain rfl : _ = g' := by injection h
       rename_i heq
       simp only [kindAt, hLookup_hSet]
       split_ifs with hn
       · subst hn
         simp [heq, nodeKind]
       · rfl
     · exact absurd h (by simp))

lemma deallocLam_spec {g g' : Graph} {n : Addr} (h : deallocLam g n = some g') :
    g'.heap = hRemove g.heap n ∧ g'.next = g.next ∧ g'.root = g.root ∧
      kindAt g n = some .lam := by
  simp only [deallocLam] at h
  split at h
  · obtain rfl : _ = g' := by injection h
    rename_i heq
    simp [kindAt, heq, nodeKind]
  · exact absurd h (by simp)

lemma deallocApp_spec {g g' : Graph} {n : Addr} (h : deallocApp g n = some g') :
    g'.heap = hRemove g.heap n ∧ g'.next = g.next ∧ g'.root = g.root ∧
      kindAt g n = some .app := by
  simp only [deallocApp] at h
  split at h
  · obtain rfl : _ = g' := by injection h
    rename_i heq
    simp [kindAt, heq, nodeKind]
  · exact absurd h (by simp)

lemma deallocSup_spec {g g' : Graph} {n : Addr} (h : deallocSup g n = some g') :
    g'.heap = hRemove g.heap n ∧ g'.next = g.next ∧ g'.root = g.root ∧
      kindAt g n = some .sup := by
  simp only [deallocSup] at h
  split at h
  · obtain rfl : _ = g' := by injection h
    rename_i heq
    simp [kindAt, heq, nodeKind]
  · exact absurd h (by simp)

lemma deallocDup_spec {g g' : Graph} {n : Addr} (h : deallocDup g n = some g') :
    g'.heap = hRemove g.heap n ∧ g'.next = g.next ∧ g'.root = g.root ∧
      kindAt g n = some .dup := by
  simp only [deallocDup] at h
  split at h
  · obtain rfl : _ = g' := by injection h
    rename_i heq
    simp [kindAt, heq, nodeKind]
  · exact absurd h (by simp)

lemma readF_remove {g g' : Graph} {n : Addr}
    (hh : g'.heap = hRemove g.heap n) (hr : g'.root = g.root) :
    ∀ f : FieldAddr, faddr f ≠ some n → readF g' f = readF g f := by
  intro f hf
  cases f <;> simp only [faddr, ne_eq, Option.some.injEq] at hf <;>
    simp [readF, hh, hr, hLookup_hRemove, hf]

lemma readF_remove_self {g g' : Graph} {n : Addr}
    (hh : g'.heap = hRemove g.heap n) :
    ∀ f : FieldAddr, faddr f = some n → readF g' f = none := by
  intro f hf
  cases f <;> simp only [faddr, Option.some.injEq] at hf <;>
    first
    | exact absurd hf (by simp)
    | (subst hf
       simp [readF, hh, hLookup_hRemove])

lemma readS_remove {g g' : Graph} {n : Addr}
    (hh : g'.heap = hRemove g.heap n) :
    ∀ s : SlotAddr, saddr s ≠ n → readS g' s = readS g s := by
  intro s hs
  cases s <;> simp only [saddr] at hs <;>
    simp [readS, hh, hLookup_hRemove, hs]

lemma kindAt_remove {g g' : Graph} {n : Addr}
    (hh : g'.heap = hRemove g.heap n) (m : Addr) :
    kindAt g' m = if m = n then none else kindAt g m := by
  simp only [kindAt, hh, hLookup_hRemove]
  split_ifs <;> rfl

lemma readF_alloc {g : Graph} {nd : Node} :
    ∀ f : FieldAddr, faddr f ≠ some g.next →
      readF (allocNode g nd).1 f = readF g f := by
  intro f hf
  cases f
  case root => rfl
  all_goals
    · simp only [faddr, ne_eq, Option.some.injEq] at hf
      simp only [readF, allocNode, hLookup]
      rename_i m
      rw [if_neg (fun h => hf h.symm)]

lemma readS_alloc {g : Graph} {nd : Node} :
    ∀ s : SlotAddr, saddr s ≠ g.next →
      readS (allocNode g nd).1 s = readS g s := by
  intro s hs
  cases s <;> simp only [saddr] at hs <;>
    · simp only [readS, allocNode, hLookup]
      rename_i m
      rw [if_neg (fun h => hs h.symm)]

lemma kindAt_alloc {g : Graph} {nd : Node} (m : Addr) :
    kindAt (allocNode g nd).1 m =
      if g.next = m then some (nodeKind nd) else kindAt g m := by
  simp only [kindAt, allocNode, hLookup]
  split_ifs <;> rfl

/-- The `NodeRef`-field values stored in a node. -/
def nodeValues : Node → List Tagged
  | .lam _ e => [e]
  | .app e1 e2 => [e1, e2]
  | .sup _ e1 e2 => [e1, e2]
  | .dup _ _ _ e => [e]

lemma readF_hSet_cases {g : Graph} {n : Addr} {nd : Node} {f : FieldAddr} {v : Tagged}
    (h : readF { g with heap := hSet g.heap n nd } f = some v) :
    readF g f = some v ∨ v ∈ nodeValues nd := by
  cases f <;> simp only [readF, hLookup_hSet] at h ⊢
  case root => exact Or.inl h
  all_goals
    · rename_i m
      by_cases hm : m = n
      · subst hm
        rw [if_pos rfl] at h
        cases heq : hLookup g.heap m <;> rw [heq] at h <;>
          simp only [Option.map] at h
        · exact absurd h (by simp)
        · cases nd <;> simp_all [nodeValues]
      · rw [if_neg hm] at h
        exact Or.inl h

lemma readF_alloc_cases {g : Graph} {nd : Node} {f : FieldAddr} {v : Tagged}
    (h : readF (allocNode g nd).1 f = some v) :
    readF g f = some v ∨ v ∈ nodeValues nd := by
  cases f <;> simp only [readF, allocNode, hLookup] at h ⊢
  case root => exact Or.inl h
  all_goals
    · rename_i m
      by_cases hm : g.next = m
      · rw [if_pos hm] at h
        cases nd <;> simp_all [nodeValues]
      · rw [if_neg hm] at h
        exact Or.inl h

lemma readF_remove_cases {g g' : Graph} {n : Addr}
    (hh : g'.heap = hRemove g.heap n) (hr : g'.root = g.root)
    {f : FieldAddr} {v : Tagged} (h : readF g' f = some v) :
    readF g f = some v := by
  cases f <;> simp only [readF, hh, hr, hLookup_hRemove] at h ⊢
  case root => exact h
  all_goals
    · rename_i m
      by_cases hm : m = n
      · rw [if_pos hm] at h
        simp at h
      · rw [if_neg hm] at h
        exact h

/-! ## No direct `Dup` pointers in `NodeRef` fields -/

/-- No `NodeRef` field of the graph (the root cell included) holds a
direct `DupPtr`; `Dup` nodes are only named through their bound-variable
markers.  Quantifying over every field of the heap subsumes the claim's
"every reachable field". -/
def NoDupPtr (g : Graph) : Prop :=
  ∀ (f : FieldAddr) (n : Addr), readF g f ≠ some (.dupPtr n)

lemma noDup_writeF {g g' : Graph} {f : FieldAddr} {v : Tagged}
    (hg : NoDupPtr g) (hv : ∀ n, v ≠ .dupPtr n)
    (h : writeF g f v = some g') : NoDupPtr g' := by
  intro f' n hr
  rw [readF_writeF h f'] at hr
  split_ifs at hr
  · exact hv n (by injection hr)
  · exact hg f' n hr

lemma noDup_writeS {g g' : Graph} {s : SlotAddr} {v : Tagged}
    (hg : NoDupPtr g) (h : writeS g s v = some g') : NoDupPtr g' := by
  intro f n hr
  rw [readF_writeS h] at hr
  exact hg f n hr

lemma noDup_hSet {hp : Heap} {nx : Addr} {rt : Tagged} {m : Addr} {nd : Node}
    (hg : NoDupPtr ⟨hp, nx, rt⟩) (hnd : ∀ n, Tagged.dupPtr n ∉ nodeValues nd) :
    NoDupPtr ⟨hSet hp m nd, nx, rt⟩ := by
  intro f n hr
  rcases @readF_hSet_cases ⟨hp, nx, rt⟩ m nd f (.dupPtr n) hr with h | h
  · exact hg f n h
  · exact hnd n h

lemma noDup_alloc (nd : Node) {g : Graph}
    (hg : NoDupPtr g) (hnd : ∀ n, Tagged.dupPtr n ∉ nodeValues nd) :
    NoDupPtr (allocNode g nd).1 := by
  intro f n hr
  rcases readF_alloc_cases hr with h | h
  · exact hg f n h
  · exact hnd n h

lemma noDup_remove {g g' : Graph} {n : Addr}
    (hg : NoDupPtr g) (hh : g'.heap = hRemove g.heap n) (hr : g'.root = g.root) :
    NoDupPtr g' := by
  intro f m hrd
  exact hg f m (readF_remove_cases hh hr hrd)

lemma noDup_deallocLam {g g' : Graph} {n : Addr}
    (hg : NoDupPtr g) (h : deallocLam g n = some g') : NoDupPtr g' := by
  obtain ⟨hh, _, hr, _⟩ := deallocLam_spec h
  exact noDup_remove hg hh hr

lemma noDup_deallocApp {g g' : Graph} {n : Addr}
    (hg : NoDupPtr g) (h : deallocApp g n = some g') : NoDupPtr g' := by
  obtain ⟨hh, _, hr, _⟩ := deallocApp_spec h
  exact noDup_remove hg hh hr

lemma noDup_deallocSup {g g' : Graph} {n : Addr}
    (hg : NoDupPtr g) (h : deallocSup g n = some g') : NoDupPtr g' := by
  obtain ⟨hh, _, hr, _⟩ := deallocSup_spec h
  exact noDup_remove hg hh hr

lemma noDup_deallocDup {g g' : Graph} {n : Addr}
    (hg : NoDupPtr g) (h : deallocDup g n = some g') : NoDupPtr g' := by
  obtain ⟨hh, _, hr, _⟩ := deallocDup_spec h
  exact noDup_remove hg hh hr

lemma noDup_ifBoundVarMoveTo {g g' : Graph} {v u : Tagged}
    (hg : NoDupPtr g) (h : ifBoundVarMoveTo v u g = some g') : NoDupPtr g' := by
  cases v <;> simp only [ifBoundVarMoveTo] at h
  all_goals first
  | exact noDup_writeS hg h
  | (obtain rfl : g = g' := by injection h
     exact hg)

lemma noDup_gc {g g' : Graph} {v : Tagged}
    (hg : NoDupPtr g) (h : garbageCollect v g = some g') : NoDupPtr g' := by
  cases v <;> simp only [garbageCollect] at h
  case unboundVar =>
    obtain rfl : g = g' := by injection h
    exact hg
  case lamBoundVar n => exact noDup_writeS hg h
  case dupABoundVar n =>
    rw [Option.bind_eq_bind, Option.bind_eq_some] at h
    obtain ⟨g1, hg1, h⟩ := h
    have h1 := noDup_writeS hg hg1
    split at h
    · exact noDup_deallocDup h1 h
    · obtain rfl : g1 = g' := by injection h
      exact h1
    · exact absurd h (by simp)
  case dupBBoundVar n =>
    rw [Option.bind_eq_bind, Option.bind_eq_some] at h
    obtain ⟨g1, hg1, h⟩ := h
    have h1 := noDup_writeS hg hg1
    split at h
    · exact noDup_deallocDup h1 h
    · obtain rfl : g1 = g' := by injection h
      exact h1
    · exact absurd h (by simp)
  case lamPtr n => exact noDup_deallocLam hg h
  case appPtr n => exact noDup_deallocApp hg h
  case supPtr n => exact noDup_deallocSup hg h
  all_goals exact absurd h (by simp)

lemma lamBoundVarOf_ne_dupPtr (t : Tagged) (n : Addr) :
    lamBoundVarOf t ≠ .dupPtr n := by
  cases t <;> simp [lamBoundVarOf]

lemma dupABoundVarOf_ne_dupPtr (t : Tagged) (n : Addr) :
    dupABoundVarOf t ≠ .dupPtr n := by
  cases t <;> simp [dupABoundVarOf]

lemma dupBBoundVarOf_ne_dupPtr (t : Tagged) (n : Addr) :
    dupBBoundVarOf t ≠ .dupPtr n := by
  cases t <;> simp [dupBBoundVarOf]

lemma noDup_substMove {g g' : Graph} {slot v : Tagged}
    (h : substMove g slot v = some g') (hg : NoDupPtr g)
    (hv : ∀ n, v ≠ Tagged.dupPtr n) : NoDupPtr g' := by
  simp only [substMove] at h
  split at h
  · exact noDup_gc hg h
  · split at h
    · rw [Option.bind_eq_bind, Option.bind_eq_some] at h
      obtain ⟨gw, hw, h⟩ := h
      exact noDup_ifBoundVarMoveTo (noDup_writeF hg hv hw) h
    all_goals exact absurd h (by simp)

lemma noDup_substBinder {g g' : Graph} {slot t : Tagged} {nd : Node}
    (h : substBinder g slot t nd = some g') (hg : NoDupPtr g)
    (hv : ∀ n, t ≠ Tagged.dupPtr n)
    (hnd : ∀ n, Tagged.dupPtr n ∉ nodeValues nd) : NoDupPtr g' := by
  simp only [substBinder] at h
  split at h
  · obtain rfl : g = g' := by injection h
    exact hg
  · split at h
    case _ f =>
      rw [Option.bind_eq_bind, Option.bind_eq_some] at h
      obtain ⟨gw, hw, h⟩ := h
      obtain rfl : { gw with heap := hSet gw.heap (addrOfT t) nd } = g' := by
        injection h
      exact noDup_hSet (noDup_writeF hg hv hw) hnd
    all_goals exact absurd h (by simp)

lemma noDup_ruleAppLam {g g' : Graph} {host : FieldAddr} {nApp nLam : Addr}
    (hg : NoDupPtr g) (h : ruleAppLam g host nApp nLam = some g') : NoDupPtr g' := by
  simp only [ruleAppLam, Option.bind_eq_bind, Option.bind_eq_some] at h
  obtain ⟨xUse, hx, h⟩ := h
  obtain ⟨e2, he2, h⟩ := h
  obtain ⟨g1, hg1, h⟩ := h
  obtain ⟨e, he, h⟩ := h
  obtain ⟨g2, hg2, h⟩ := h
  obtain ⟨g3, hg3, h⟩ := h
  obtain ⟨g4, hg4, h⟩ := h
  have hv2 : ∀ n, e2 ≠ Tagged.dupPtr n := fun n hn => hg _ n (hn ▸ he2)
  have h1 : NoDupPtr g1 := noDup_substMove hg1 hg hv2
  have hve : ∀ n, e ≠ Tagged.dupPtr n := fun n hn => h1 _ n (hn ▸ he)
  exact noDup_deallocLam
    (noDup_deallocApp (noDup_ifBoundVarMoveTo (noDup_writeF h1 hve hg2) hg3) hg4) h

lemma noDup_ruleAppSup {g g' : Graph} {host : FieldAddr} {nApp nSup : Addr}
    (hg : NoDupPtr g) (h : ruleAppSup g host nApp nSup = some g') : NoDupPtr g' := by
  simp only [ruleAppSup] at h
  split at h
  case _ l e1' e2' heq =>
    simp only [allocNode, Option.bind_eq_bind, Option.bind_eq_some] at h
    obtain ⟨e3, he3, h⟩ := h
    obtain ⟨g1, hg1, h⟩ := h
    obtain ⟨e1, he1, h⟩ := h
    obtain ⟨g2, hg2, h⟩ := h
    obtain ⟨e2, he2, h⟩ := h
    obtain ⟨g3, hg3, h⟩ := h
    obtain ⟨g4, hg4, h⟩ := h
    obtain ⟨g5, hg5, h⟩ := h
    have hga : NoDupPtr _ :=
      noDup_alloc (.sup 0 .unusedVar .unusedVar)
        (noDup_alloc (.app .unusedVar .unusedVar)
          (noDup_alloc (.app .unusedVar .unusedVar)
            (noDup_alloc (.dup 0 .unusedVar .unusedVar .unusedVar) hg
              (by intro n; simp [nodeValues]))
            (by intro n; simp [nodeValues]))
          (by intro n; simp [nodeValues]))
        (by intro n; simp [nodeValues])
    have hv3 : ∀ n, e3 ≠ Tagged.dupPtr n := fun n hn => hga _ n (hn ▸ he3)
    have h1 : NoDupPtr g1 :=
      noDup_ifBoundVarMoveTo
        (noDup_hSet hga (by
          intro n hn
          simp only [nodeValues, List.mem_singleton] at hn
          exact hv3 n hn.symm)) hg1
    have hv1 : ∀ n, e1 ≠ Tagged.dupPtr n := fun n hn => h1 _ n (hn ▸ he1)
    have h2 : NoDupPtr g2 :=
      noDup_ifBoundVarMoveTo
        (noDup_hSet h1 (by
          intro n hn
          simp only [nodeValues, List.mem_cons, List.mem_singleton, List.not_mem_nil, or_false, false_or] at hn
          rcases hn with hn | hn
          · exact hv1 n hn.symm
          · exact absurd hn.symm (by simp [dupABoundVarOf, addrOfT]))) hg2
    have hv2 : ∀ n, e2 ≠ Tagged.dupPtr n := fun n hn => h2 _ n (hn ▸ he2)
    have h3 : NoDupPtr g3 :=
      noDup_ifBoundVarMoveTo
        (noDup_hSet h2 (by
          intro n hn
          simp only [nodeValues, List.mem_cons, List.mem_singleton, List.not_mem_nil, or_false, false_or] at hn
          rcases hn with hn | hn
          · exact hv2 n hn.symm
          · exact absurd hn.symm (by simp [dupBBoundVarOf, addrOfT]))) hg3
    have h4 : NoDupPtr g4 :=
      noDup_writeF (noDup_hSet h3 (by intro n; simp [nodeValues])) (by simp) hg4
    have h5 : NoDupPtr g5 := noDup_deallocApp h4 hg5
    exact noDup_deallocSup h5 h
  · exact absurd h (by simp)

lemma optBind_eq_some {α β : Type} {x : Option α} {f : α → Option β} {b : β} :
    (x >>= f) = some b ↔ ∃ a, x = some a ∧ f a = some b := by
  cases x <;> simp

lemma noDup_allocLamIfUsed {g : Graph} (slot : Tagged) (hg : NoDupPtr g) :
    NoDupPtr (allocLamIfUsed g slot).1 := by
  rw [allocLamIfUsed]
  split_ifs
  · exact hg
  · exact noDup_alloc _ hg (by intro n; simp [nodeValues])

lemma allocLamIfUsed_snd_ne (g : Graph) (slot : Tagged) (n : Addr) :
    (allocLamIfUsed g slot).2 ≠ Tagged.dupPtr n := by
  rw [allocLamIfUsed]
  split_ifs <;> simp

lemma noDup_allocSupIfUsed {g : Graph} (slot : Tagged) (hg : NoDupPtr g) :
    NoDupPtr (allocSupIfUsed g slot).1 := by
  rw [allocSupIfUsed]
  split_ifs
  · exact hg
  · exact noDup_alloc _ hg (by intro n; simp [nodeValues])

lemma allocSupIfUsed_snd_ne (g : Graph) (slot : Tagged) (n : Addr) :
    (allocSupIfUsed g slot).2 ≠ Tagged.dupPtr n := by
  rw [allocSupIfUsed]
  split_ifs <;> simp

lemma noDup_ruleDupLam {g g' : Graph} {nDup nLam : Addr}
    (hg : NoDupPtr g) (h : ruleDupLam g nDup nLam = some g') : NoDupPtr g' := by
  simp only [ruleDupLam] at h
  split at h
  case _ l dupA dupB e0 heq =>
    simp only [optBind_eq_some] at h
    obtain ⟨lamX, hlx, h⟩ := h
    obtain ⟨g5, hg5, h⟩ := h
    obtain ⟨g6, hg6, h⟩ := h
    obtain ⟨g7, hg7, h⟩ := h
    obtain ⟨e, he, h⟩ := h
    obtain ⟨g8, hg8, h⟩ := h
    obtain ⟨g9, hg9, h⟩ := h
    have h5 : NoDupPtr g5 :=
      noDup_substBinder hg5
        (noDup_alloc (.dup 0 .unusedVar .unusedVar .unusedVar)
          (noDup_allocSupIfUsed _
            (noDup_allocLamIfUsed _ (noDup_allocLamIfUsed _ hg)))
          (by intro n; simp [nodeValues]))
        (allocLamIfUsed_snd_ne _ _) (by
          intro n hn
          simp only [nodeValues, List.mem_singleton] at hn
          exact dupABoundVarOf_ne_dupPtr _ n hn.symm)
    have h6 : NoDupPtr g6 :=
      noDup_substBinder hg6 h5 (allocLamIfUsed_snd_ne _ _) (by
        intro n hn
        simp only [nodeValues, List.mem_singleton] at hn
        exact dupBBoundVarOf_ne_dupPtr _ n hn.symm)
    have h7 : NoDupPtr g7 :=
      noDup_substBinder hg7 h6 (allocSupIfUsed_snd_ne _ _) (by
        intro n hn
        simp only [nodeValues, List.mem_cons, List.mem_singleton, List.not_mem_nil, or_false, false_or] at hn
        rcases hn with hn | hn
        · exact lamBoundVarOf_ne_dupPtr _ n hn.symm
        · exact lamBoundVarOf_ne_dupPtr _ n hn.symm)
    have hve : ∀ n, e ≠ Tagged.dupPtr n := fun n hn => h7 _ n (hn ▸ he)
    have h8 : NoDupPtr g8 :=
      noDup_ifBoundVarMoveTo
        (noDup_hSet h7 (by
          intro n hn
          simp only [nodeValues, List.mem_singleton] at hn
          exact hve n hn.symm)) hg8
    exact noDup_deallocLam (noDup_deallocDup h8 hg9) h
  · exact absurd h (by simp)

lemma noDup_ruleDupSup {g g' : Graph} {nDup nSup : Addr}
    (hg : NoDupPtr g) (h : ruleDupSup g nDup nSup = some g') : NoDupPtr g' := by
  simp only [ruleDupSup] at h
  split at h
  case _ l dupA dupB e0 m e1' e2' =>
    split at h
    · -- same label
      simp only [optBind_eq_some] at h
      obtain ⟨e1, he1, h⟩ := h
      obtain ⟨g1, hg1, h⟩ := h
      obtain ⟨e2, he2, h⟩ := h
      obtain ⟨g2, hg2, h⟩ := h
      obtain ⟨g3, hg3, h⟩ := h
      have hv1 : ∀ n, e1 ≠ Tagged.dupPtr n := fun n hn => hg _ n (hn ▸ he1)
      have h1 : NoDupPtr g1 := noDup_substMove hg1 hg hv1
      have hv2 : ∀ n, e2 ≠ Tagged.dupPtr n := fun n hn => h1 _ n (hn ▸ he2)
      have h2 : NoDupPtr g2 := noDup_substMove hg2 h1 hv2
      exact noDup_deallocSup (noDup_deallocDup h2 hg3) h
    · -- different labels
      simp only [optBind_eq_some] at h
      obtain ⟨g1, hg1, h⟩ := h
      obtain ⟨g2, hg2, h⟩ := h
      obtain ⟨e1, he1, h⟩ := h
      obtain ⟨g3, hg3, h⟩ := h
      obtain ⟨e2, he2, h⟩ := h
      obtain ⟨g4, hg4, h⟩ := h
      obtain ⟨g5, hg5, h⟩ := h
      have h1 : NoDupPtr g1 :=
        noDup_substBinder hg1
          (noDup_alloc (.dup 0 .unusedVar .unusedVar .unusedVar)
            (noDup_alloc (.dup 0 .unusedVar .unusedVar .unusedVar)
              (noDup_allocSupIfUsed _ (noDup_allocSupIfUsed _ hg))
              (by intro n; simp [nodeValues]))
            (by intro n; simp [nodeValues]))
          (allocSupIfUsed_snd_ne _ _) (by
            intro n hn
            simp only [nodeValues, List.mem_cons, List.mem_singleton, List.not_mem_nil, or_false, false_or] at hn
            rcases hn with hn | hn
            · exact dupABoundVarOf_ne_dupPtr _ n hn.symm
            · exact dupABoundVarOf_ne_dupPtr _ n hn.symm)
      have h2 : NoDupPtr g2 :=
        noDup_substBinder hg2 h1 (allocSupIfUsed_snd_ne _ _) (by
          intro n hn
          simp only [nodeValues, List.mem_cons, List.mem_singleton, List.not_mem_nil, or_false, false_or] at hn
          rcases hn with hn | hn
          · exact dupBBoundVarOf_ne_dupPtr _ n hn.symm
          · exact dupBBoundVarOf_ne_dupPtr _ n hn.symm)
      have hv1 : ∀ n, e1 ≠ Tagged.dupPtr n := fun n hn => h2 _ n (hn ▸ he1)
      have h3 : NoDupPtr g3 :=
        noDup_ifBoundVarMoveTo
          (noDup_hSet h2 (by
            intro n hn
            simp only [nodeValues, List.mem_singleton] at hn
            exact hv1 n hn.symm)) hg3
      have hv2 : ∀ n, e2 ≠ Tagged.dupPtr n := fun n hn => h3 _ n (hn ▸ he2)
      have h4 : NoDupPtr g4 :=
        noDup_ifBoundVarMoveTo
          (noDup_hSet h3 (by
            intro n hn
            simp only [nodeValues, List.mem_singleton] at hn
            exact hv2 n hn.symm)) hg4
      exact noDup_deallocSup (noDup_deallocDup h4 hg5) h
  all_goals exact absurd h (by simp)

lemma noDup_reduceRedex {g g' : Graph} {host : FieldAddr}
    (hg : NoDupPtr g) (h : reduceRedex g host = some g') : NoDupPtr g' := by
  simp only [reduceRedex, optBind_eq_some] at h
  obtain ⟨v, hv, h⟩ := h
  split at h
  · simp only [optBind_eq_some] at h
    obtain ⟨e1, he1, h⟩ := h
    split at h
    · exact noDup_ruleAppLam hg h
    · exact noDup_ruleAppSup hg h
    all_goals exact absurd h (by simp)
  all_goals first
  | (simp only [optBind_eq_some] at h
     obtain ⟨e, he, h⟩ := h
     split at h
     · exact noDup_ruleDupLam hg h
     · exact noDup_ruleDupSup hg h
     all_goals exact absurd h (by simp))
  | exact absurd h (by simp)

lemma slotOfMarker_ne_dupPtr {m : Tagged} {s : SlotAddr}
    (h : slotOfMarker m = some s) : ∀ n, m ≠ Tagged.dupPtr n := by
  cases m <;> simp_all [slotOfMarker]

lemma noDup_buildRec (t : Term) :
    ∀ {vb : VB} {dst : FieldAddr} {g g' : Graph} {vb' : VB},
      NoDupPtr g → buildRec vb dst g t = some (g', vb') → NoDupPtr g' := by
  induction t with
  | var x =>
    intro vb dst g g' vb' hg h
    simp only [buildRec] at h
    split at h
    · simp only [optBind_eq_some] at h
      obtain ⟨g1, hg1, h⟩ := h
      simp only [Option.pure_def, Option.some.injEq, Prod.mk.injEq] at h
      obtain ⟨rfl, rfl⟩ := h
      exact noDup_writeF hg (by simp) hg1
    · split at h
      · exact absurd h (by simp)
      · simp only [optBind_eq_some] at h
        obtain ⟨s, hs, h⟩ := h
        obtain ⟨v, hv, h⟩ := h
        split at h
        · simp only [optBind_eq_some] at h
          obtain ⟨g1, hg1, h⟩ := h
          obtain ⟨g2, hg2, h⟩ := h
          simp only [Option.pure_def, Option.some.injEq, Prod.mk.injEq] at h
          obtain ⟨rfl, rfl⟩ := h
          exact noDup_writeF (noDup_writeS hg hg1) (slotOfMarker_ne_dupPtr hs) hg2
        · exact absurd h (by simp)
  | lam x body ih =>
    intro vb dst g g' vb' hg h
    simp only [buildRec, optBind_eq_some] at h
    obtain ⟨⟨g1, vb1⟩, hb, h⟩ := h
    obtain ⟨g2, hg2, h⟩ := h
    simp only [Option.pure_def, Option.some.injEq, Prod.mk.injEq] at h
    obtain ⟨rfl, rfl⟩ := h
    exact noDup_writeF
      (ih (noDup_alloc (.lam .unusedVar .unboundVar) hg
        (by intro n; simp [nodeValues])) hb)
      (by simp) hg2
  | app e1 e2 ih1 ih2 =>
    intro vb dst g g' vb' hg h
    simp only [buildRec, optBind_eq_some] at h
    obtain ⟨⟨g1, vb1⟩, hb1, h⟩ := h
    obtain ⟨⟨g2, vb2⟩, hb2, h⟩ := h
    obtain ⟨g3, hg3, h⟩ := h
    simp only [Option.pure_def, Option.some.injEq, Prod.mk.injEq] at h
    obtain ⟨rfl, rfl⟩ := h
    exact noDup_writeF
      (ih2 (ih1 (noDup_alloc (.app .unboundVar .unboundVar) hg
        (by intro n; simp [nodeValues])) hb1) hb2)
      (by simp) hg3
  | sup l e1 e2 ih1 ih2 =>
    intro vb dst g g' vb' hg h
    simp only [buildRec, optBind_eq_some] at h
    obtain ⟨⟨g1, vb1⟩, hb1, h⟩ := h
    obtain ⟨⟨g2, vb2⟩, hb2, h⟩ := h
    obtain ⟨g3, hg3, h⟩ := h
    simp only [Option.pure_def, Option.some.injEq, Prod.mk.injEq] at h
    obtain ⟨rfl, rfl⟩ := h
    exact noDup_writeF
      (ih2 (ih1 (noDup_alloc (.sup l .unboundVar .unboundVar) hg
        (by intro n; simp [nodeValues])) hb1) hb2)
      (by simp) hg3
  | dup l a b e cont ih1 ih2 =>
    intro vb dst g g' vb' hg h
    simp only [buildRec] at h
    split at h
    · exact absurd h (by simp)
    · simp only [optBind_eq_some] at h
      obtain ⟨⟨g1, vb1⟩, hb1, h⟩ := h
      obtain ⟨⟨g2, vb2⟩, hb2, h⟩ := h
      obtain ⟨sa, hsa, h⟩ := h
      obtain ⟨sb, hsb, h⟩ := h
      split at h
      · exact absurd h (by simp)
      · simp only [Option.pure_def, Option.some.injEq, Prod.mk.injEq] at h
        obtain ⟨rfl, rfl⟩ := h
        exact ih2 (ih1 (noDup_alloc (.dup l .unusedVar .unusedVar .unboundVar) hg
          (by intro n; simp [nodeValues])) hb1) hb2
  | letE x e1 e2 ih1 ih2 =>
    intro vb dst g g' vb' hg h
    simp only [buildRec, optBind_eq_some] at h
    obtain ⟨⟨g1, vb1⟩, hb1, h⟩ := h
    obtain ⟨⟨g2, vb2⟩, hb2, h⟩ := h
    obtain ⟨g3, hg3, h⟩ := h
    obtain ⟨g4, hg4, h⟩ := h
    simp only [Option.pure_def, Option.some.injEq, Prod.mk.injEq] at h
    obtain ⟨rfl, rfl⟩ := h
    exact noDup_writeF
      (noDup_writeF
        (ih2 (ih1 (noDup_alloc (.lam .unusedVar .unboundVar)
          (noDup_alloc (.app .unboundVar .unboundVar) hg
            (by intro n; simp [nodeValues]))
          (by intro n; simp [nodeValues])) hb1) hb2)
        (by simp) hg3)
      (by simp) hg4

lemma noDup_emptyGraph : NoDupPtr emptyGraph := by
  intro f n
  cases f <;> simp [readF, emptyGraph, hLookup]

/-- C9.  No `NodeRef` field (root cell included) of a graph built from
any term holds a direct `DupPtr`, and every application of `reduce_redex`
preserves this: `Dup` nodes are only ever referenced through their
`DupA`/`DupB` bound-variable markers. -/
theorem c9_no_direct_dup_ptrs :
    (∀ (t : Term) (g : Graph), buildTerm t = some g → NoDupPtr g) ∧
    (∀ (g : Graph) (f : FieldAddr) (g' : Graph),
      NoDupPtr g → reduceRedex g f = some g' → NoDupPtr g') := by
  constructor
  · intro t g h
    simp only [buildTerm, Option.map_eq_some'] at h
    obtain ⟨⟨g0, vb0⟩, hp, hg⟩ := h
    subst hg
    exact noDup_buildRec t noDup_emptyGraph hp
  · intro g f g' hg h
    exact noDup_reduceRedex hg h

def gShared1 : Graph := (reduceRedex gShared (.supE2 3)).getD emptyGraph

/-- Witness for C9: the graph of `dup #0{a b} = (λy y); #0{a b}` and its
`DupLam` reduct. -/
theorem c9_no_direct_dup_ptrs_witness :
    NoDupPtr gShared ∧ NoDupPtr gShared1 :=
  ⟨c9_no_direct_dup_ptrs.1 tSharedDup gShared (by decide),
   c9_no_direct_dup_ptrs.2 gShared (.supE2 3) gShared1
     (c9_no_direct_dup_ptrs.1 tSharedDup gShared (by decide)) (by decide)⟩

/-! ## Effect characterisations of the substitution primitives -/

/-- The node that `garbage_collect v` may modify or deallocate: the
binder node of a marker, or the pointed-to node itself. -/
def gcNodeOf : Tagged → Option Addr
  | .lamBoundVar n => some n
  | .dupABoundVar n => some n
  | .dupBBoundVar n => some n
  | .lamPtr n => some n
  | .appPtr n => some n
  | .supPtr n => some n
  | _ => none

lemma gc_spec {g g' : Graph} {v : Tagged} (h : garbageCollect v g = some g') :
    g'.next = g.next ∧
    (∀ f : FieldAddr, faddr f ≠ gcNodeOf v → readF g' f = readF g f) ∧
    (∀ s : SlotAddr, some (saddr s) ≠ gcNodeOf v → readS g' s = readS g s) ∧
    (∀ n : Addr, some n ≠ gcNodeOf v → kindAt g' n = kindAt g n) := by
  cases v <;> simp only [garbageCollect, gcNodeOf] at h ⊢
  case unboundVar =>
    obtain rfl : g = g' := by injection h
    exact ⟨rfl, fun f _ => rfl, fun s _ => rfl, fun n _ => rfl⟩
  case lamBoundVar n =>
    refine ⟨writeS_next h, fun f _ => readF_writeS h f, fun s hs => ?_, fun m _ => kindAt_writeS h m⟩
    exact readS_writeS_other h (by
      intro hc
      subst hc
      simp [saddr] at hs)
  case dupABoundVar n =>
    simp only [optBind_eq_some] at h
    obtain ⟨g1, hg1, h⟩ := h
    split at h
    · obtain ⟨hh, hnx, hrt, _⟩ := deallocDup_spec h
      refine ⟨by rw [hnx, writeS_next hg1], fun f hf => ?_, fun s hs => ?_, fun m hm => ?_⟩
      · rw [readF_remove hh hrt f (by simpa using hf), readF_writeS hg1 f]
      · rw [readS_remove hh s (by simpa using hs),
          readS_writeS_other hg1 (by
            intro hc
            subst hc
            simp [saddr] at hs)]
      · rw [kindAt_remove hh m, if_neg (by simpa using hm), kindAt_writeS hg1 m]
    · obtain rfl : g1 = g' := by injection h
      refine ⟨writeS_next hg1, fun f _ => readF_writeS hg1 f, fun s hs => ?_,
        fun m _ => kindAt_writeS hg1 m⟩
      exact readS_writeS_other hg1 (by
        intro hc
        subst hc
        simp [saddr] at hs)
    · exact absurd h (by simp)
  case dupBBoundVar n =>
    simp only [optBind_eq_some] at h
    obtain ⟨g1, hg1, h⟩ := h
    split at h
    · obtain ⟨hh, hnx, hrt, _⟩ := deallocDup_spec h
      refine ⟨by rw [hnx, writeS_next hg1], fun f hf => ?_, fun s hs => ?_, fun m hm => ?_⟩
      · rw [readF_remove hh hrt f (by simpa using hf), readF_writeS hg1 f]
      · rw [readS_remove hh s (by simpa using hs),
          readS_writeS_other hg1 (by
            intro hc
            subst hc
            simp [saddr] at hs)]
      · rw [kindAt_remove hh m, if_neg (by simpa using hm), kindAt_writeS hg1 m]
    · obtain rfl : g1 = g' := by injection h
      refine ⟨writeS_next hg1, fun f _ => readF_writeS hg1 f, fun s hs => ?_,
        fun m _ => kindAt_writeS hg1 m⟩
      exact readS_writeS_other hg1 (by
        intro hc
        subst hc
        simp [saddr] at hs)
    · exact absurd h (by simp)
  case lamPtr n =>
    obtain ⟨hh, hnx, hrt, _⟩ := deallocLam_spec h
    exact ⟨hnx, fun f hf => readF_remove hh hrt f (by simpa using hf),
      fun s hs => readS_remove hh s (by simpa using hs),
      fun m hm => by rw [kindAt_remove hh m, if_neg (by simpa using hm)]⟩
  case appPtr n =>
    obtain ⟨hh, hnx, hrt, _⟩ := deallocApp_spec h
    exact ⟨hnx, fun f hf => readF_remove hh hrt f (by simpa using hf),
      fun s hs => readS_remove hh s (by simpa using hs),
      fun m hm => by rw [kindAt_remove hh m, if_neg (by simpa using hm)]⟩
  case supPtr n =>
    obtain ⟨hh, hnx, hrt, _⟩ := deallocSup_spec h
    exact ⟨hnx, fun f hf => readF_remove hh hrt f (by simpa using hf),
      fun s hs => readS_remove hh s (by simpa using hs),
      fun m hm => by rw [kindAt_remove hh m, if_neg (by simpa using hm)]⟩
  all_goals exact absurd h (by simp)

lemma substMove_used_spec {g g' : Graph} {F : FieldAddr} {v : Tagged}
    (h : substMove g (.varUsePtr F) v = some g') :
    (∀ f, readF g' f = if f = F then some v else readF g f) ∧
    (∀ s, slotOfMarker v ≠ some s → readS g' s = readS g s) ∧
    (∀ s, slotOfMarker v = some s → readS g' s = some (.varUsePtr F)) ∧
    g'.next = g.next ∧ (∀ n, kindAt g' n = kindAt g n) := by
  simp only [substMove, reduceCtorEq, if_false, optBind_eq_some] at h
  obtain ⟨g1, hg1, h⟩ := h
  have hfields : ∀ f, readF g' f = if f = F then some v else readF g f := by
    intro f
    have hmv : readF g' f = readF g1 f := by
      cases v <;> simp only [ifBoundVarMoveTo] at h <;>
        first
        | exact readF_writeS h f
        | (obtain rfl : g1 = g' := by injection h
           rfl)
    rw [hmv, readF_writeF hg1 f]
  have hnext : g'.next = g.next := by
    have : g'.next = g1.next := by
      cases v <;> simp only [ifBoundVarMoveTo] at h <;>
        first
        | exact writeS_next h
        | (obtain rfl : g1 = g' := by injection h
           rfl)
    rw [this, writeF_next hg1]
  have hkind : ∀ n, kindAt g' n = kindAt g n := by
    intro n
    have : kindAt g' n = kindAt g1 n := by
      cases v <;> simp only [ifBoundVarMoveTo] at h <;>
        first
        | exact kindAt_writeS h n
        | (obtain rfl : g1 = g' := by injection h
           rfl)
    rw [this, kindAt_writeF hg1 n]
  refine ⟨hfields, ?_, ?_, hnext, hkind⟩
  · intro s hs
    have : readS g' s = readS g1 s := by
      cases v <;> simp only [ifBoundVarMoveTo] at h <;>
        first
        | (refine readS_writeS_other h ?_
           intro hc
           subst hc
           simp [slotOfMarker] at hs)
        | (obtain rfl : g1 = g' := by injection h
           rfl)
    rw [this, readS_writeF hg1 s]
  · intro s hs
    cases v <;> simp only [slotOfMarker] at hs
    all_goals first
    | (simp only [Option.some.injEq] at hs
       subst hs
       simp only [ifBoundVarMoveTo] at h
       exact readS_writeS_self h)
    | exact absurd hs (by simp)

lemma substMove_unused (g : Graph) (v : Tagged) :
    substMove g .unusedVar v = garbageCollect v g := by
  simp [substMove]

lemma substMove_next {g g' : Graph} {slot v : Tagged} (h : substMove g slot v = some g') :
    g'.next = g.next := by
  cases slot
  case unusedVar =>
    rw [substMove_unused] at h
    exact (gc_spec h).1
  case varUsePtr f => exact (substMove_used_spec h).2.2.2.1
  all_goals simp [substMove] at h

/-- C2.  Functional correctness of `rule_app_lam` on a redex
`P ↦ App(Lam L, a)`: the argument is substituted for the binder's single
occurrence (with the back-pointer retargeted when the argument is itself
a bound variable), or discarded via `garbage_collect` when the binder is
unused; the lambda body is written into the host field `P` (retargeting
its binder when the body is a bound variable); exactly the `App` and
`Lam` nodes are deallocated and nothing is allocated; every field and
slot not involved is unchanged.  `F = Lam.e` is the self-application
`(λx x) a` case, where the body written into `P` is the freshly
substituted argument.  The aliasing side conditions are consequences of
the back-pointer and reachability invariants of well-formed graphs. -/
theorem c2_app_lam_correct
    {g g' : Graph} {host : FieldAddr} {A L : Addr} {xs a ev : Tagged}
    (hhost : readF g host = some (.appPtr A))
    (hA : hLookup g.heap A = some (.app (.lamPtr L) a))
    (hL : hLookup g.heap L = some (.lam xs ev))
    (hostA : faddr host ≠ some A) (hostL : faddr host ≠ some L)
    (hrun : ruleAppLam g host A L = some g') :
    hLookup g'.heap A = none ∧
    hLookup g'.heap L = none ∧
    g'.next = g.next ∧
    (∀ F, xs = .varUsePtr F → faddr F ≠ some A → F ≠ host →
      ((F = .lamE L →
          readF g' host = some a ∧
          (∀ s, slotOfMarker a = some s → saddr s ≠ A → saddr s ≠ L →
            readS g' s = some (.varUsePtr host))) ∧
       (F ≠ .lamE L → faddr F ≠ some L →
          readF g' host = some ev ∧
          readF g' F = some a ∧
          (∀ s, slotOfMarker a = some s → saddr s ≠ A → saddr s ≠ L →
            slotOfMarker ev ≠ some s → readS g' s = some (.varUsePtr F)) ∧
          (∀ s, slotOfMarker ev = some s → saddr s ≠ A → saddr s ≠ L →
            readS g' s = some (.varUsePtr host))) ∧
       (∀ f, f ≠ host → f ≠ F → faddr f ≠ some A → faddr f ≠ some L →
          readF g' f = readF g f) ∧
       (∀ s, slotOfMarker a ≠ some s → slotOfMarker ev ≠ some s →
          saddr s ≠ A → saddr s ≠ L → readS g' s = readS g s) ∧
       (∀ n, n ≠ A → n ≠ L → kindAt g' n = kindAt g n))) ∧
    (xs = .unusedVar →
      gcNodeOf a ≠ some A → gcNodeOf a ≠ some L → faddr host ≠ gcNodeOf a →
      (∃ g1, garbageCollect a g = some g1) ∧
      readF g' host = some ev ∧
      (∀ s, slotOfMarker ev = some s → saddr s ≠ A → saddr s ≠ L →
        readS g' s = some (.varUsePtr host)) ∧
      (∀ f, f ≠ host → faddr f ≠ some A → faddr f ≠ some L →
        faddr f ≠ gcNodeOf a → readF g' f = readF g f) ∧
      (∀ s, slotOfMarker ev ≠ some s → saddr s ≠ A → saddr s ≠ L →
        some (saddr s) ≠ gcNodeOf a → readS g' s = readS g s) ∧
      (∀ n, n ≠ A → n ≠ L → some n ≠ gcNodeOf a → kindAt g' n = kindAt g n)) := by
  have hAL : A ≠ L := by
    intro hEq
    rw [hEq, hL] at hA
    cases hA
  simp only [ruleAppLam, optBind_eq_some] at hrun
  obtain ⟨xs0, hxs0, hrun⟩ := hrun
  obtain ⟨a0, ha0, hrun⟩ := hrun
  obtain ⟨g1, hg1, hrun⟩ := hrun
  obtain ⟨e, he, hrun⟩ := hrun
  obtain ⟨g2, hg2, hrun⟩ := hrun
  obtain ⟨g3, hg3, hrun⟩ := hrun
  obtain ⟨g4, hg4, hrun⟩ := hrun
  have hxseq : xs0 = xs := by
    have hrs : readS g (.lamX L) = some xs := by simp [readS, hL]
    rw [hxs0] at hrs
    injection hrs
  have haeq : a0 = a := by
    have hra : readF g (.appE2 A) = some a := by simp [readF, hA]
    rw [ha0] at hra
    injection hra
  rw [hxseq, haeq] at hg1
  have hevg : readF g (.lamE L) = some ev := by simp [readF, hL]
  obtain ⟨hh4, hn4, hr4, _⟩ := deallocApp_spec hg4
  obtain ⟨hh5, hn5, hr5, _⟩ := deallocLam_spec hrun
  have hsm2 : substMove g1 (.varUsePtr host) e = some g3 := by
    simp only [substMove, reduceCtorEq, if_false, optBind_eq_some]
    exact ⟨g2, hg2, hg3⟩
  obtain ⟨hsm2f, hsm2so, hsm2ss, hsm2n, hsm2k⟩ := substMove_used_spec hsm2
  have hAgone : hLookup g'.heap A = none := by
    rw [hh5, hLookup_hRemove, if_neg hAL, hh4, hLookup_hRemove, if_pos rfl]
  have hLgone : hLookup g'.heap L = none := by
    rw [hh5, hLookup_hRemove, if_pos rfl]
  have hfin_f : ∀ f, faddr f ≠ some A → faddr f ≠ some L → readF g' f = readF g3 f := by
    intro f h1 h2
    rw [readF_remove hh5 hr5 f h2, readF_remove hh4 hr4 f h1]
  have hfin_s : ∀ s, saddr s ≠ A → saddr s ≠ L → readS g' s = readS g3 s := by
    intro s h1 h2
    rw [readS_remove hh5 s h2, readS_remove hh4 s h1]
  have hfin_k : ∀ n, n ≠ A → n ≠ L → kindAt g' n = kindAt g3 n := by
    intro n h1 h2
    rw [kindAt_remove hh5 n, if_neg h2, kindAt_remove hh4 n, if_neg h1]
  have hnext : g'.next = g.next := by
    rw [hn5, hn4, hsm2n, substMove_next hg1]
  refine ⟨hAgone, hLgone, hnext, ?_, ?_⟩
  · -- the binder is used: xs = VarUsePtr F
    intro F hxF hFA hFhost
    rw [hxF] at hg1
    obtain ⟨hs1f, hs1so, hs1ss, hs1n, hs1k⟩ := substMove_used_spec hg1
    have heval : e = if FieldAddr.lamE L = F then a else ev := by
      have hf := hs1f (.lamE L)
      rw [he] at hf
      by_cases hc : FieldAddr.lamE L = F
      · rw [if_pos hc] at hf ⊢
        exact Option.some.inj hf
      · rw [if_neg hc] at hf ⊢
        rw [hevg] at hf
        exact Option.some.inj hf
    refine ⟨?_, ?_, ?_, ?_, ?_⟩
    · -- identity aliasing: F is the lambda's own body field
      intro hFL
      have heva : e = a := by rw [heval, if_pos hFL.symm]
      refine ⟨?_, ?_⟩
      · rw [hfin_f host hostA hostL, hsm2f host, if_pos rfl, heva]
      · intro s hsa h1 h2
        rw [hfin_s s h1 h2]
        exact hsm2ss s (by rw [heva]; exact hsa)
    · -- generic occurrence field
      intro hFL hFL'
      have hevv : e = ev := by rw [heval, if_neg (fun hc => hFL hc.symm)]
      refine ⟨?_, ?_, ?_, ?_⟩
      · rw [hfin_f host hostA hostL, hsm2f host, if_pos rfl, hevv]
      · rw [hfin_f F hFA hFL', hsm2f F, if_neg hFhost, hs1f F, if_pos rfl]
      · intro s hsa h1 h2 hse
        rw [hfin_s s h1 h2, hsm2so s (by rw [hevv]; exact hse), hs1ss s hsa]
      · intro s hse h1 h2
        rw [hfin_s s h1 h2]
        exact hsm2ss s (by rw [hevv]; exact hse)
    · intro f hf1 hf2 hf3 hf4
      rw [hfin_f f hf3 hf4, hsm2f f, if_neg hf1, hs1f f, if_neg hf2]
    · intro s hsa hse h1 h2
      have hseE : slotOfMarker e ≠ some s := by
        rw [heval]
        split_ifs
        · exact hsa
        · exact hse
      rw [hfin_s s h1 h2, hsm2so s hseE, hs1so s hsa]
    · intro n h1 h2
      rw [hfin_k n h1 h2, hsm2k n, hs1k n]
  · -- the binder is unused: the argument is garbage-collected
    intro hxU hgA hgL hghost
    rw [hxU, substMove_unused] at hg1
    obtain ⟨hgcn, hgcf, hgcs, hgck⟩ := gc_spec hg1
    have hLg : faddr (FieldAddr.lamE L) ≠ gcNodeOf a := by
      simp only [faddr]
      exact fun hc => hgL hc.symm
    have hevv : e = ev := by
      have h2 := hgcf (.lamE L) hLg
      rw [he, hevg] at h2
      exact Option.some.inj h2
    refine ⟨⟨g1, hg1⟩, ?_, ?_, ?_, ?_, ?_⟩
    · rw [hfin_f host hostA hostL, hsm2f host, if_pos rfl, hevv]
    · intro s hse h1 h2
      rw [hfin_s s h1 h2]
      exact hsm2ss s (by rw [hevv]; exact hse)
    · intro f hf1 hf2 hf3 hf4
      rw [hfin_f f hf2 hf3, hsm2f f, if_neg hf1, hgcf f hf4]
    · intro s hse h1 h2 h3
      rw [hfin_s s h1 h2, hsm2so s (by rw [hevv]; exact hse), hgcs s h3]
    · intro n h1 h2 h3
      rw [hfin_k n h1 h2, hsm2k n, hgck n h3]

def gFree : Graph := (buildTerm tFreeUnbound).getD emptyGraph

def gFree1 : Graph := (ruleAppLam gFree .root 1 2).getD emptyGraph

/-- Witness for C2: on the graph of `((λx x) y)` (App at 1, Lam at 2,
redex hosted by the root field), `rule_app_lam` deallocates both nodes,
preserves the allocation counter and leaves the unbound `y` at the
root. -/
theorem c2_app_lam_correct_witness :
    ruleAppLam gFree .root 1 2 = some gFree1 ∧
    hLookup gFree1.heap 1 = none ∧ hLookup gFree1.heap 2 = none ∧
    gFree1.next = gFree.next ∧ readF gFree1 .root = some .unboundVar := by
  have h := @c2_app_lam_correct gFree gFree1 .root 1 2
      (.varUsePtr (.lamE 2)) .unboundVar (.lamBoundVar 2)
      (by decide) (by decide) (by decide) (by decide) (by decide) (by decide)
  refine ⟨by decide, h.1, h.2.1, h.2.2.1, ?_⟩
  exact ((h.2.2.2.1 (.lamE 2) rfl (by decide) (by decide)).1 rfl).1

/-- The single field a `substMove` overwrites (none in the unused
case). -/
def smTouchF : Tagged → Option FieldAddr
  | .varUsePtr f => some f
  | _ => none

/-- The single node a `substMove` may deallocate or whose slot it may
reset, via `garbage_collect`, when the binder slot is unused. -/
def smGcN : Tagged → Tagged → Option Addr
  | .unusedVar, v => gcNodeOf v
  | _, _ => none

lemma substMove_spec {g g' : Graph} {slot v : Tagged}
    (h : substMove g slot v = some g') :
    g'.next = g.next ∧
    (∀ f, some f ≠ smTouchF slot → faddr f ≠ smGcN slot v → readF g' f = readF g f) ∧
    (∀ s, slotOfMarker v ≠ some s → some (saddr s) ≠ smGcN slot v → readS g' s = readS g s) ∧
    (∀ n, some n ≠ smGcN slot v → kindAt g' n = kindAt g n) := by
  cases slot
  case unusedVar =>
    rw [substMove_unused] at h
    obtain ⟨h1, h2, h3, h4⟩ := gc_spec h
    exact ⟨h1, fun f _ hf => h2 f (by simpa [smGcN] using hf),
      fun s _ hs => h3 s (by simpa [smGcN] using hs),
      fun n hn => h4 n (by simpa [smGcN] using hn)⟩
  case varUsePtr F =>
    obtain ⟨h1, h2, _, h4, h5⟩ := substMove_used_spec h
    refine ⟨h4, fun f hf _ => ?_, fun s hs _ => h2 s hs, fun n _ => h5 n⟩
    simp only [smTouchF] at hf
    rw [h1 f, if_neg (fun hc => hf (congrArg some hc))]
  all_goals simp [substMove] at h

/-- C7 (amended).  Same-label `rule_dup_sup` on `Dup D` / `Sup S`: the
Sup's two children `s1`, `s2` are moved verbatim into the occurrence
fields bound by `D.a` and `D.b` (a child whose binder slot is unused is
handed to `garbage_collect`, which may reset a third binder's slot or
deallocate a third `Dup` node, bounded by `smGcN`); no nodes are
allocated; exactly the `Dup` and `Sup` are deallocated; and every other
field, slot and node is unchanged except that a moved child that is
itself a bound-variable marker has its binder's slot retargeted to its
new occurrence field.  The aliasing side conditions are consequences of
the back-pointer and reachability invariants of well-formed graphs. -/
theorem c7_dup_sup_same_label
    {g g' : Graph} {D S : Addr} {l : Label} {dupA dupB de s1 s2 : Tagged}
    (hD : hLookup g.heap D = some (.dup l dupA dupB de))
    (hS : hLookup g.heap S = some (.sup l s1 s2))
    (hA1 : smTouchF dupA ≠ some (.supE2 S))
    (hA2 : smGcN dupA s1 ≠ some S)
    (hrun : ruleDupSup g D S = some g') :
    hLookup g'.heap D = none ∧
    hLookup g'.heap S = none ∧
    g'.next = g.next ∧
    (∀ FA, dupA = .varUsePtr FA → faddr FA ≠ some D → faddr FA ≠ some S →
       smTouchF dupB ≠ some FA → faddr FA ≠ smGcN dupB s2 →
       readF g' FA = some s1) ∧
    (∀ FB, dupB = .varUsePtr FB → faddr FB ≠ some D → faddr FB ≠ some S →
       readF g' FB = some s2) ∧
    (∀ FA sa, dupA = .varUsePtr FA → slotOfMarker s1 = some sa →
       saddr sa ≠ D → saddr sa ≠ S → slotOfMarker s2 ≠ some sa →
       some (saddr sa) ≠ smGcN dupB s2 →
       readS g' sa = some (.varUsePtr FA)) ∧
    (∀ FB sb, dupB = .varUsePtr FB → slotOfMarker s2 = some sb →
       saddr sb ≠ D → saddr sb ≠ S →
       readS g' sb = some (.varUsePtr FB)) ∧
    (∀ f, some f ≠ smTouchF dupA → some f ≠ smTouchF dupB →
       faddr f ≠ some D → faddr f ≠ some S →
       faddr f ≠ smGcN dupA s1 → faddr f ≠ smGcN dupB s2 →
       readF g' f = readF g f) ∧
    (∀ s, slotOfMarker s1 ≠ some s → slotOfMarker s2 ≠ some s →
       saddr s ≠ D → saddr s ≠ S →
       some (saddr s) ≠ smGcN dupA s1 → some (saddr s) ≠ smGcN dupB s2 →
       readS g' s = readS g s) ∧
    (∀ n, n ≠ D → n ≠ S → some n ≠ smGcN dupA s1 → some n ≠ smGcN dupB s2 →
       kindAt g' n = kindAt g n) := by
  have hDS : D ≠ S := by
    intro hEq
    rw [hEq, hS] at hD
    cases hD
  simp only [ruleDupSup, hD, hS, eq_self_iff_true, if_true, optBind_eq_some] at hrun
  obtain ⟨e1, he1, hrun⟩ := hrun
  obtain ⟨g1, hg1, hrun⟩ := hrun
  obtain ⟨e2, he2, hrun⟩ := hrun
  obtain ⟨g2, hg2, hrun⟩ := hrun
  obtain ⟨g3, hg3, hrun⟩ := hrun
  have he1eq : e1 = s1 := by
    have hr : readF g (.supE1 S) = some s1 := by simp [readF, hS]
    rw [he1] at hr
    injection hr
  rw [he1eq] at hg1
  obtain ⟨hs1n, hs1f, hs1s, hs1k⟩ := substMove_spec hg1
  have he2eq : e2 = s2 := by
    have hr : readF g (.supE2 S) = some s2 := by simp [readF, hS]
    have hfr := hs1f (.supE2 S) (fun hc => hA1 hc.symm)
      (by simp only [faddr]; exact fun hc => hA2 hc.symm)
    rw [he2, hr] at hfr
    injection hfr
  rw [he2eq] at hg2
  obtain ⟨hs2n, hs2f, hs2s, hs2k⟩ := substMove_spec hg2
  obtain ⟨hh4, hn4, hr4, _⟩ := deallocDup_spec hg3
  obtain ⟨hh5, hn5, hr5, _⟩ := deallocSup_spec hrun
  have hDgone : hLookup g'.heap D = none := by
    rw [hh5, hLookup_hRemove, if_neg hDS, hh4, hLookup_hRemove, if_pos rfl]
  have hSgone : hLookup g'.heap S = none := by
    rw [hh5, hLookup_hRemove, if_pos rfl]
  have hfin_f : ∀ f, faddr f ≠ some D → faddr f ≠ some S → readF g' f = readF g2 f := by
    intro f h1 h2
    rw [readF_remove hh5 hr5 f h2, readF_remove hh4 hr4 f h1]
  have hfin_s : ∀ s, saddr s ≠ D → saddr s ≠ S → readS g' s = readS g2 s := by
    intro s h1 h2
    rw [readS_remove hh5 s h2, readS_remove hh4 s h1]
  have hfin_k : ∀ n, n ≠ D → n ≠ S → kindAt g' n = kindAt g2 n := by
    intro n h1 h2
    rw [kindAt_remove hh5 n, if_neg h2, kindAt_remove hh4 n, if_neg h1]
  have hnext : g'.next = g.next := by
    rw [hn5, hn4, hs2n, hs1n]
  refine ⟨hDgone, hSgone, hnext, ?_, ?_, ?_, ?_, ?_, ?_, ?_⟩
  · intro FA hFA h1 h2 h3 h4
    rw [hFA] at hg1
    obtain ⟨u1f, _, _, _, _⟩ := substMove_used_spec hg1
    rw [hfin_f FA h1 h2, hs2f FA (fun hc => h3 hc.symm) h4, u1f FA, if_pos rfl]
  · intro FB hFB h1 h2
    rw [hFB] at hg2
    obtain ⟨u2f, _, _, _, _⟩ := substMove_used_spec hg2
    rw [hfin_f FB h1 h2, u2f FB, if_pos rfl]
  · intro FA sa hFA hsa h1 h2 h3 h4
    rw [hFA] at hg1
    obtain ⟨_, _, u1ss, _, _⟩ := substMove_used_spec hg1
    rw [hfin_s sa h1 h2, hs2s sa h3 h4, u1ss sa hsa]
  · intro FB sb hFB hsb h1 h2
    rw [hFB] at hg2
    obtain ⟨_, _, u2ss, _, _⟩ := substMove_used_spec hg2
    rw [hfin_s sb h1 h2, u2ss sb hsb]
  · intro f hf1 hf2 hf3 hf4 hf5 hf6
    rw [hfin_f f hf3 hf4, hs2f f hf2 hf6, hs1f f hf1 hf5]
  · intro s h1 h2 h3 h4 h5 h6
    rw [hfin_s s h3 h4, hs2s s h2 h6, hs1s s h1 h5]
  · intro n h1 h2 h3 h4
    rw [hfin_k n h1 h2, hs2k n h4, hs1k n h3]

def gMark2 : Graph := (ruleDupSup gMark 2 3).getD emptyGraph

/-- Witness for C7: in the graph of `(λy (dup #0{a b} = #0{y z}; (a b)))`
(Lam 1, Dup 2, Sup 3, App 4), the same-label `DupSup` deallocates the
Dup and Sup, moves `y`'s marker and the unbound `z` into the App's two
fields, and retargets the `λy` binder slot to the new occurrence. -/
theorem c7_dup_sup_same_label_witness :
    ruleDupSup gMark 2 3 = some gMark2 ∧
    hLookup gMark2.heap 2 = none ∧ hLookup gMark2.heap 3 = none ∧
    gMark2.next = gMark.next ∧
    readF gMark2 (.appE1 4) = some (.lamBoundVar 1) ∧
    readS gMark2 (.lamX 1) = some (.varUsePtr (.appE1 4)) := by
  have h := @c7_dup_sup_same_label gMark gMark2 2 3 0
      (.varUsePtr (.appE1 4)) (.varUsePtr (.appE2 4)) (.supPtr 3)
      (.lamBoundVar 1) .unboundVar
      (by decide) (by decide) (by decide) (by decide) (by decide)
  refine ⟨by decide, h.1, h.2.1, h.2.2.1, ?_, ?_⟩
  · exact h.2.2.2.1 (.appE1 4) rfl (by decide) (by decide) (by decide) (by decide)
  · exact h.2.2.2.2.2.1 (.appE1 4) (.lamX 1) rfl rfl (by decide) (by decide)
      (by decide) (by decide)

/-! ## Soundness of the redex scanner -/

/-- Reachability of a field along exactly the edges `collect_redexes`
follows: subterm pointers into a node's fields, and Dup bound-variable
markers (and direct Dup pointers) into the referenced Dup's `e` field.
Lam bound-variable markers, use pointers and the null sentinels are
leaves. -/
inductive ReachF (g : Graph) : FieldAddr → Prop where
  | root : ReachF g .root
  | lamE {f : FieldAddr} {n : Addr} :
      ReachF g f → readF g f = some (.lamPtr n) → ReachF g (.lamE n)
  | appE1 {f : FieldAddr} {n : Addr} :
      ReachF g f → readF g f = some (.appPtr n) → ReachF g (.appE1 n)
  | appE2 {f : FieldAddr} {n : Addr} :
      ReachF g f → readF g f = some (.appPtr n) → ReachF g (.appE2 n)
  | supE1 {f : FieldAddr} {n : Addr} :
      ReachF g f → readF g f = some (.supPtr n) → ReachF g (.supE1 n)
  | supE2 {f : FieldAddr} {n : Addr} :
      ReachF g f → readF g f = some (.supPtr n) → ReachF g (.supE2 n)
  | dupEA {f : FieldAddr} {n : Addr} :
      ReachF g f → readF g f = some (.dupABoundVar n) → ReachF g (.dupE n)
  | dupEB {f : FieldAddr} {n : Addr} :
      ReachF g f → readF g f = some (.dupBBoundVar n) → ReachF g (.dupE n)
  | dupEP {f : FieldAddr} {n : Addr} :
      ReachF g f → readF g f = some (.dupPtr n) → ReachF g (.dupE n)

lemma keys_extend {g : Graph} {acc : List FieldAddr} {visited : List VKey} (k0 : VKey)
    (hkeys : ∀ x ∈ acc, ∃ k, (readF g x).map vkeyOf = some k ∧ k ∈ visited) :
    ∀ x ∈ acc, ∃ k, (readF g x).map vkeyOf = some k ∧ k ∈ k0 :: visited := by
  intro x hx
  obtain ⟨k, h1, h2⟩ := hkeys x hx
  exact ⟨k, h1, List.mem_cons_of_mem _ h2⟩

lemma keys_cons_ok {g : Graph} {acc : List FieldAddr} {visited : List VKey}
    {f : FieldAddr} {v : Tagged}
    (hv : readF g f = some v) (hmem : vkeyOf v ∉ visited)
    (hkeys : ∀ x ∈ acc, ∃ k, (readF g x).map vkeyOf = some k ∧ k ∈ visited)
    (hnodup : (acc.map (fun x => (readF g x).map vkeyOf)).Nodup) :
    (∀ x ∈ f :: acc, ∃ k, (readF g x).map vkeyOf = some k ∧ k ∈ vkeyOf v :: visited) ∧
    ((f :: acc).map (fun x => (readF g x).map vkeyOf)).Nodup := by
  constructor
  · intro x hx
    rcases List.mem_cons.mp hx with rfl | hx
    · exact ⟨vkeyOf v, by simp [hv], List.mem_cons_self _ _⟩
    · obtain ⟨k, h1, h2⟩ := hkeys x hx
      exact ⟨k, h1, List.mem_cons_of_mem _ h2⟩
  · simp only [List.map_cons, List.nodup_cons]
    refine ⟨?_, hnodup⟩
    intro hin
    obtain ⟨x, hx, hkx⟩ := List.mem_map.mp hin
    obtain ⟨k, h1, h2⟩ := hkeys x hx
    rw [h1, hv, Option.map_some'] at hkx
    exact hmem (Option.some.inj hkx ▸ h2)

lemma scanGo_sound {g : Graph} : ∀ (fuel : Nat) (stack : List FieldAddr)
    (visited : List VKey) (acc out : List FieldAddr),
    scanGo g fuel stack visited acc = some out →
    (∀ f ∈ stack, ReachF g f) →
    (∀ f ∈ acc, isRedexField g f = true ∧ ReachF g f) →
    (∀ f ∈ acc, ∃ k, (readF g f).map vkeyOf = some k ∧ k ∈ visited) →
    (acc.map (fun f => (readF g f).map vkeyOf)).Nodup →
    (∀ f ∈ out, isRedexField g f = true ∧ ReachF g f) ∧
    (out.map (fun f => (readF g f).map vkeyOf)).Nodup := by
  intro fuel
  induction fuel with
  | zero =>
    intro stack visited acc out h
    simp [scanGo] at h
  | succ fuel ih =>
    intro stack visited acc out h hstack hacc hkeys hnodup
    cases stack with
    | nil =>
      simp only [scanGo] at h
      obtain rfl : acc.reverse = out := by injection h
      refine ⟨fun x hx => hacc x (List.mem_reverse.mp hx), ?_⟩
      rw [List.map_reverse]
      exact List.nodup_reverse.mpr hnodup
    | cons f stack' =>
      simp only [scanGo, optBind_eq_some] at h
      obtain ⟨v, hv, h⟩ := h
      by_cases hmem : vkeyOf v ∈ visited
      · rw [if_pos hmem] at h
        exact ih stack' visited acc out h
          (fun x hx => hstack x (List.mem_cons_of_mem f hx)) hacc hkeys hnodup
      · rw [if_neg hmem] at h
        cases v with
        | unusedVar =>
          exact ih _ _ _ out h (fun x hx => hstack x (List.mem_cons_of_mem f hx))
            hacc (keys_extend _ hkeys) hnodup
        | unboundVar =>
          exact ih _ _ _ out h (fun x hx => hstack x (List.mem_cons_of_mem f hx))
            hacc (keys_extend _ hkeys) hnodup
        | varUsePtr F =>
          exact ih _ _ _ out h (fun x hx => hstack x (List.mem_cons_of_mem f hx))
            hacc (keys_extend _ hkeys) hnodup
        | lamBoundVar n =>
          exact ih _ _ _ out h (fun x hx => hstack x (List.mem_cons_of_mem f hx))
            hacc (keys_extend _ hkeys) hnodup
        | lamPtr n =>
          refine ih _ _ _ out h ?_ hacc (keys_extend _ hkeys) hnodup
          intro x hx
          rcases List.mem_cons.mp hx with rfl | hx
          · exact ReachF.lamE (hstack f (List.mem_cons_self f stack')) hv
          · exact hstack x (List.mem_cons_of_mem f hx)
        | supPtr n =>
          refine ih _ _ _ out h ?_ hacc (keys_extend _ hkeys) hnodup
          intro x hx
          rcases List.mem_cons.mp hx with rfl | hx
          · exact ReachF.supE2 (hstack f (List.mem_cons_self f stack')) hv
          · rcases List.mem_cons.mp hx with rfl | hx
            · exact ReachF.supE1 (hstack f (List.mem_cons_self f stack')) hv
            · exact hstack x (List.mem_cons_of_mem f hx)
        | appPtr n =>
          simp only [optBind_eq_some] at h
          obtain ⟨e1, he1, h⟩ := h
          have hst : ∀ x ∈ FieldAddr.appE2 n :: FieldAddr.appE1 n :: stack', ReachF g x := by
            intro x hx
            rcases List.mem_cons.mp hx with rfl | hx
            · exact ReachF.appE2 (hstack f (List.mem_cons_self f stack')) hv
            · rcases List.mem_cons.mp hx with rfl | hx
              · exact ReachF.appE1 (hstack f (List.mem_cons_self f stack')) hv
              · exact hstack x (List.mem_cons_of_mem f hx)
          cases e1 <;>
            first
            | exact ih _ _ _ out h hst hacc (keys_extend _ hkeys) hnodup
            | (obtain ⟨hk2, hn2⟩ := keys_cons_ok hv hmem hkeys hnodup
               refine ih _ _ _ out h hst ?_ hk2 hn2
               intro x hx
               rcases List.mem_cons.mp hx with rfl | hx
               · exact ⟨by simp [isRedexField, hv, he1],
                   hstack x (List.mem_cons_self x stack')⟩
               · exact hacc x hx)
        | dupABoundVar n =>
          simp only [optBind_eq_some] at h
          obtain ⟨e, he, h⟩ := h
          have hst : ∀ x ∈ FieldAddr.dupE n :: stack', ReachF g x := by
            intro x hx
            rcases List.mem_cons.mp hx with rfl | hx
            · exact ReachF.dupEA (hstack f (List.mem_cons_self f stack')) hv
            · exact hstack x (List.mem_cons_of_mem f hx)
          cases e <;>
            first
            | exact ih _ _ _ out h hst hacc (keys_extend _ hkeys) hnodup
            | (obtain ⟨hk2, hn2⟩ := keys_cons_ok hv hmem hkeys hnodup
               refine ih _ _ _ out h hst ?_ hk2 hn2
               intro x hx
               rcases List.mem_cons.mp hx with rfl | hx
               · exact ⟨by simp [isRedexField, hv, he],
                   hstack x (List.mem_cons_self x stack')⟩
               · exact hacc x hx)
        | dupBBoundVar n =>
          simp only [optBind_eq_some] at h
          obtain ⟨e, he, h⟩ := h
          have hst : ∀ x ∈ FieldAddr.dupE n :: stack', ReachF g x := by
            intro x hx
            rcases List.mem_cons.mp hx with rfl | hx
            · exact ReachF.dupEB (hstack f (List.mem_cons_self f stack')) hv
            · exact hstack x (List.mem_cons_of_mem f hx)
          cases e <;>
            first
            | exact ih _ _ _ out h hst hacc (keys_extend _ hkeys) hnodup
            | (obtain ⟨hk2, hn2⟩ := keys_cons_ok hv hmem hkeys hnodup
               refine ih _ _ _ out h hst ?_ hk2 hn2
               intro x hx
               rcases List.mem_cons.mp hx with rfl | hx
               · exact ⟨by simp [isRedexField, hv, he],
                   hstack x (List.mem_cons_self x stack')⟩
               · exact hacc x hx)
        | dupPtr n =>
          simp only [optBind_eq_some] at h
          obtain ⟨e, he, h⟩ := h
          have hst : ∀ x ∈ FieldAddr.dupE n :: stack', ReachF g x := by
            intro x hx
            rcases List.mem_cons.mp hx with rfl | hx
            · exact ReachF.dupEP (hstack f (List.mem_cons_self f stack')) hv
            · exact hstack x (List.mem_cons_of_mem f hx)
          cases e <;>
            first
            | exact ih _ _ _ out h hst hacc (keys_extend _ hkeys) hnodup
            | (obtain ⟨hk2, hn2⟩ := keys_cons_ok hv hmem hkeys hnodup
               refine ih _ _ _ out h hst ?_ hk2 hn2
               intro x hx
               rcases List.mem_cons.mp hx with rfl | hx
               · exact ⟨by simp [isRedexField, hv, he],
                   hstack x (List.mem_cons_self x stack')⟩
               · exact hacc x hx)

/-- C4 (amended).  Soundness of `collect_redexes`: every field the scan
returns currently holds an `App` whose `e1` is a `Lam` or `Sup`, or a
(marker of a) `Dup` whose `e` is a `Lam` or `Sup`; every returned field
is reachable from the root along exactly the edges the scanner follows
(Dup markers included, Lam markers as leaves); and the returned fields
have pairwise distinct raw-pointer keys, so at most one host field per
node is reported. -/
theorem c4_scan_sound {g : Graph} {l : List FieldAddr}
    (h : collectRedexes g = some l) :
    (∀ f ∈ l, isRedexField g f = true ∧ ReachF g f) ∧
    (l.map (fun f => (readF g f).map vkeyOf)).Nodup := by
  refine scanGo_sound (scanFuel g) [.root] [] [] l h ?_ ?_ ?_ ?_
  · intro x hx
    rcases List.mem_cons.mp hx with rfl | hx
    · exact ReachF.root
    · cases hx
  · intro x hx
    cases hx
  · intro x hx
    cases hx
  · simp

/-- Witness for C4: on the graph of `dup #0{a b} = (λy y); #0{a b}` the
scan returns exactly `[Sup.e2]`, which is a Dup-marker redex field and
reachable. -/
theorem c4_scan_sound_witness :
    collectRedexes gShared = some [.supE2 3] ∧
    isRedexField gShared (.supE2 3) = true ∧ ReachF gShared (.supE2 3) := by
  have h := @c4_scan_sound gShared [.supE2 3] (by decide)
  exact ⟨by decide, (h.1 _ (by simp)).1, (h.1 _ (by simp)).2⟩

/-! ## Affinity (the claim's side condition for the builder) -/

/-- Occurrences of the name `x` free in a term, with the scoping the
builder uses: `Lam y` binds `y` in its body; `Dup` binds `a` and `b` in
both `e` and the continuation, and `Let` binds `x` in both `e1` and
`e2`, because the code pushes those binder markers before recursing into
`e` resp. `e1`. -/
def fOcc (x : Name) : Term → Nat
  | .var y => if y = x then 1 else 0
  | .lam y e => if y = x then 0 else fOcc x e
  | .app e1 e2 => fOcc x e1 + fOcc x e2
  | .sup _ e1 e2 => fOcc x e1 + fOcc x e2
  | .dup _ a b e k => if a = x ∨ b = x then 0 else fOcc x e + fOcc x k
  | .letE y e1 e2 => if y = x then 0 else fOcc x e1 + fOcc x e2

/-- The claim's affinity predicate: no variable has two or more
occurrences under the same binder. -/
def affineB : Term → Bool
  | .var _ => true
  | .lam y e => decide (fOcc y e ≤ 1) && affineB e
  | .app e1 e2 => affineB e1 && affineB e2
  | .sup _ e1 e2 => affineB e1 && affineB e2
  | .dup _ a b e k =>
    decide (fOcc a e + fOcc a k ≤ 1) && decide (fOcc b e + fOcc b k ≤ 1) &&
      affineB e && affineB k
  | .letE y e1 e2 => decide (fOcc y e1 + fOcc y e2 ≤ 1) && affineB e1 && affineB e2

/-- C3.  The claim promises `Result`-based rejection of non-affine terms
and successful construction for every affine term.  The code's builder
is an `impl From` that asserts and unwraps instead of returning a
`Result` (an abort, modelled as `none`), and it also aborts on the
affine term `tDupBothDead` (both binders of the `Dup` end up unused), so
affinity does not imply successful construction; the non-affine
`tNonAffine` likewise aborts instead of producing an error value. -/
theorem c3_affine_build_aborts :
    affineB tDupBothDead = true ∧ buildTerm tDupBothDead = none ∧
    affineB tNonAffine = false ∧ buildTerm tNonAffine = none := by
  exact ⟨by decide, by decide, by decide, by decide⟩

/-! ## Pretty printer (`impl fmt::Display for Term`) and parser
(`parse.rs` over the `crate::parser` combinator module, which is absent
from `src/`; the combinators are therefore modelled from the spec's
section 6 contracts). -/

def chLam : Char := 'λ'
def chAt : Char := '@'
def chOp : Char := '('
def chCl : Char := ')'
def chHash : Char := '#'
def chEq : Char := '='
def chSemi : Char := ';'
def chLb : Char := Char.ofNat 123
def chRb : Char := Char.ofNat 125
def kwLet : List Char := ['l', 'e', 't', ' ']
def kwDup : List Char := ['d', 'u', 'p', ' ']

/-- Modelled from the spec: whitespace characters (section 6.1 `ws`; the
pretty printer emits no comments, so comment skipping is immaterial for
the round trip and not modelled). -/
def isWsC (c : Char) : Bool :=
  c.toNat = 32 || c.toNat = 10 || c.toNat = 9 || c.toNat = 13

/-- Modelled from the spec: the head-char rule of `name` in the grammar,
`[_a-z$]` (also the guard of `parse_var`). -/
def isHeadC (c : Char) : Bool :=
  (97 ≤ c.toNat && c.toNat ≤ 122) || c.toNat = 95 || c.toNat = 36

/-- Modelled from the spec: the continuation characters of `name`,
`[_a-zA-Z0-9]`. -/
def isNameC (c : Char) : Bool :=
  (97 ≤ c.toNat && c.toNat ≤ 122) || (65 ≤ c.toNat && c.toNat ≤ 90) ||
    (48 ≤ c.toNat && c.toNat ≤ 57) || c.toNat = 95

/-- Decimal digits `0`-`9`. -/
def isDigitC (c : Char) : Bool := 48 ≤ c.toNat && c.toNat ≤ 57

/-- Modelled from the spec: skip a run of whitespace. -/
def skip : List Char → List Char
  | [] => []
  | c :: cs => if isWsC c then skip cs else c :: cs

/-- Modelled from the spec: match an exact text right at the cursor,
returning the remaining input on success. -/
def textHere : List Char → List Char → Option (List Char)
  | [], s => some s
  | _ :: _, [] => none
  | p :: ps, c :: cs => if c = p then textHere ps cs else none

/-- Modelled from the spec: `parser::text` — skip whitespace, then
attempt the exact text, reporting whether it matched (never an error). -/
def text (pat s : List Char) : List Char × Bool :=
  match textHere pat (skip s) with
  | some s1 => (s1, true)
  | none => (skip s, false)

/-- Modelled from the spec: `parser::consume` — skip whitespace, then
require the exact text. -/
def consume (pat s : List Char) : Option (List Char) := textHere pat (skip s)

/-- Modelled from the spec: the raw name scanner — a head char matching
`[_a-z$]` followed by the longest run of `[_a-zA-Z0-9]` continuation
characters; the empty name on any other input. -/
def takeNameCont : List Char → List Char × List Char
  | [] => ([], [])
  | c :: cs =>
    if isNameC c then
      let (n, r) := takeNameCont cs
      (c :: n, r)
    else ([], c :: cs)

def takeName (s : List Char) : List Char × List Char :=
  match s with
  | c :: cs =>
    if isHeadC c then
      let (n, r) := takeNameCont cs
      (c :: n, r)
    else ([], s)
  | [] => ([], [])

/-- Modelled from the spec: `parser::name` — skip, then scan a possibly
empty name. -/
def nameP (s : List Char) : List Char × List Char := takeName (skip s)

/-- Modelled from the spec: `parser::name1` — like `name` but an error
on the empty name. -/
def name1 (s : List Char) : Option (List Char × List Char) :=
  match nameP s with
  | ([], _) => none
  | (n, r) => some (n, r)

def digitChar : Nat → Char
  | 0 => '0'
  | 1 => '1'
  | 2 => '2'
  | 3 => '3'
  | 4 => '4'
  | 5 => '5'
  | 6 => '6'
  | 7 => '7'
  | 8 => '8'
  | _ => '9'

/-- Decimal rendering of a label, most significant digit first (the
`u64` `Display` the printer relies on). -/
def natDigs (n : Nat) : List Char :=
  if n < 10 then [digitChar n]
  else natDigs (n / 10) ++ [digitChar (n % 10)]
decreasing_by
  exact Nat.div_lt_self (by omega) (by omega)

/-- `num_here`: accumulate decimal digits right at the cursor. -/
def readDigits : List Char → Nat → Nat × List Char
  | [], acc => (acc, [])
  | c :: cs, acc =>
    if isDigitC c then readDigits cs (acc * 10 + (c.toNat - 48))
    else (acc, c :: cs)

/-- `parse_label`: `#` followed by at least one digit, failing when the
number does not fit in a `u64`. -/
def parseLabel (s : List Char) : Option (Nat × List Char) := do
  let s1 ← consume [chHash] s
  match s1 with
  | c :: _ =>
    if isDigitC c then
      let (n, r) := readDigits s1 0
      if n < 2 ^ 64 then some (n, r) else none
    else none
  | [] => none

/-- The pretty printer, from `impl fmt::Display for Term` in
`syntax.rs`. -/
def prettyT : Term → List Char
  | .var x => x
  | .lam x e => chOp :: chLam :: (x ++ ' ' :: (prettyT e ++ [chCl]))
  | .app f a => chOp :: (prettyT f ++ ' ' :: (prettyT a ++ [chCl]))
  | .sup l a b => chHash :: (natDigs l ++ chLb :: (prettyT a ++ ' ' :: (prettyT b ++ [chRb])))
  | .dup l x y e k =>
    chOp :: 'd' :: 'u' :: 'p' :: ' ' :: chHash ::
      (natDigs l ++ chLb :: (x ++ ' ' :: (y ++ chRb :: ' ' :: chEq :: ' ' ::
        (prettyT e ++ chSemi :: ' ' :: (prettyT k ++ [chCl])))))
  | .letE x e k =>
    chOp :: 'l' :: 'e' :: 't' :: ' ' ::
      (x ++ ' ' :: chEq :: ' ' ::
        (prettyT e ++ chSemi :: ' ' :: (prettyT k ++ [chCl])))

mutual
/-- `parse_term`: the grammar dispatch in its source order — let, dup,
lam, app, sup, var — with a fuel parameter standing in for the source
loop's termination on finite input; each alternative's guard declines
without consuming, and a body failure is a parse error (not a
backtrack), exactly as `parser::guard`/`parser::grammar` behave. -/
def parseTerm : Nat → List Char → Option (Term × List Char)
  | 0, _ => none
  | fuel + 1, s0 =>
    let s := skip s0
    match textHere kwLet s with
    | some s1 => do
      let (x, s2) ← name1 s1
      let s3 ← consume [chEq] s2
      let (e, s4) ← parseTerm fuel s3
      let (s5, _) := text [chSemi] s4
      let (k, s6) ← parseTerm fuel s5
      pure (Term.letE x e k, s6)
    | none =>
    match textHere kwDup s with
    | some s1 => do
      let (l, s2) ← parseLabel s1
      let s3 ← consume [chLb] s2
      let (x, s4) ← name1 s3
      let (y, s5) ← name1 s4
      let s6 ← consume [chRb] s5
      let s7 ← consume [chEq] s6
      let (e, s8) ← parseTerm fuel s7
      let (s9, _) := text [chSemi] s8
      let (k, s10) ← parseTerm fuel s9
      pure (Term.dup l x y e k, s10)
    | none =>
    match (match textHere [chLam] s with | some s1 => some s1 | none => textHere [chAt] s) with
    | some s1 => do
      let (x, s2) := nameP s1
      let (e, s3) ← parseTerm fuel s2
      pure (Term.lam x e, s3)
    | none =>
    match textHere [chOp] s with
    | some s1 => do
      let (ts, s2) ← parseApps fuel s1
      match ts with
      | [] => none
      | t0 :: tr => pure (tr.foldl Term.app t0, s2)
    | none =>
    match textHere [chHash] s with
    | some _ => do
      let (l, s1) ← parseLabel s
      let s2 ← consume [chLb] s1
      let (a, s3) ← parseTerm fuel s2
      let (b, s4) ← parseTerm fuel s3
      let s5 ← consume [chRb] s4
      pure (Term.sup l a b, s5)
    | none =>
    match s with
    | c :: _ =>
      if isHeadC c then
        match takeName s with
        | ([], _) => none
        | (n, r) => some (Term.var n, r)
      else none
    | [] => none

/-- The element loop of `parse_app`'s `parser::list`: stop on `)` (after
skipping), otherwise parse one term and continue. -/
def parseApps : Nat → List Char → Option (List Term × List Char)
  | 0, _ => none
  | fuel + 1, s =>
    match text [chCl] s with
    | (s1, true) => some ([], s1)
    | (_, false) => do
      let (t, s1) ← parseTerm fuel s
      let (ts, s2) ← parseApps fuel s1
      pure (t :: ts, s2)
end

/-- `parse_term` followed by `parser::done`: the whole input must be
consumed up to trailing whitespace.  The fuel is a modelling artifact;
twice the input length plus two outlasts the source loop on any input
that parses. -/
def parseTop (s : List Char) : Option Term :=
  match parseTerm (2 * s.length + 2) s with
  | some (t, r) => if skip r = [] then some t else none
  | none => none

/-- The spec's `name` grammar rule: `[_a-z$][_a-zA-Z0-9]*`. -/
def specNameOk (nm : Name) : Bool :=
  match nm with
  | [] => false
  | c :: cs => isHeadC c && cs.all isNameC

/-- Well-formed names for the round trip: grammar-valid and not one of
the keywords `let` / `dup` (which the parser reserves when followed by a
space). -/
def wfName (nm : Name) : Bool :=
  specNameOk nm && decide (nm ≠ ['l', 'e', 't']) && decide (nm ≠ ['d', 'u', 'p'])

/-- Well-formed terms for the round trip: every name well formed, every
label a `u64`. -/
def wfT : Term → Bool
  | .var x => wfName x
  | .lam x e => wfName x && wfT e
  | .app f a => wfT f && wfT a
  | .sup l a b => decide (l < 2 ^ 64) && wfT a && wfT b
  | .dup l x y e k => decide (l < 2 ^ 64) && wfName x && wfName y && wfT e && wfT k
  | .letE x e k => wfName x && wfT e && wfT k

/-- The characters that can immediately follow a printed subterm inside
a larger printed term: space, `)`, `;`, or the closing brace. -/
def isFollowC (c : Char) : Bool :=
  c.toNat = 32 || c.toNat = 41 || c.toNat = 59 || c.toNat = 125

def goodFollow : List Char → Bool
  | [] => true
  | c :: _ => isFollowC c

lemma headC_not_ws {c : Char} (h : isHeadC c = true) : isWsC c = false := by
  simp only [isHeadC, Bool.or_eq_true, Bool.and_eq_true, decide_eq_true_eq] at h
  simp only [isWsC, Bool.or_eq_false_iff, decide_eq_false_iff_not]
  omega

lemma followC_not_nameC {c : Char} (h : isFollowC c = true) : isNameC c = false := by
  simp only [isFollowC, Bool.or_eq_true, decide_eq_true_eq] at h
  simp only [isNameC, Bool.or_eq_false_iff, Bool.and_eq_false_iff,
    decide_eq_false_iff_not]
  omega

lemma skip_cons_nonws {c : Char} (h : isWsC c = false) (s : List Char) :
    skip (c :: s) = c :: s := by
  simp [skip, h]

lemma skip_space (s : List Char) : skip (' ' :: s) = skip s := by
  simp only [skip]
  rw [if_pos (by decide)]

lemma goodFollow_nameStop {w : List Char} (h : goodFollow w = true) :
    ∀ c, w.head? = some c → isNameC c = false := by
  intro c hc
  cases w with
  | nil => cases hc
  | cons c0 ws =>
    obtain rfl : c0 = c := Option.some.inj hc
    exact followC_not_nameC (by simpa [goodFollow] using h)

lemma takeNameCont_append {cs w : List Char} (hcs : cs.all isNameC = true)
    (hw : ∀ c, w.head? = some c → isNameC c = false) :
    takeNameCont (cs ++ w) = (cs, w) := by
  induction cs with
  | nil =>
    cases w with
    | nil => rfl
    | cons c ws => simp [takeNameCont, hw c rfl]
  | cons c cs ih =>
    simp only [List.all_cons, Bool.and_eq_true] at hcs
    simp [takeNameCont, hcs.1, ih hcs.2]

lemma takeName_append {x w : List Char} (hx : specNameOk x = true)
    (hw : ∀ c, w.head? = some c → isNameC c = false) :
    takeName (x ++ w) = (x, w) := by
  cases x with
  | nil => simp [specNameOk] at hx
  | cons c cs =>
    simp only [specNameOk, Bool.and_eq_true] at hx
    simp [takeName, hx.1, takeNameCont_append hx.2 hw]

lemma digitChar_isDigit {d : Nat} (h : d < 10) : isDigitC (digitChar d) = true := by
  interval_cases d <;> decide

lemma digitChar_toNat {d : Nat} (h : d < 10) : (digitChar d).toNat = 48 + d := by
  interval_cases d <;> decide

lemma readDigits_stop {w : List Char} (hw : ∀ c, w.head? = some c → isDigitC c = false)
    (acc : Nat) : readDigits w acc = (acc, w) := by
  cases w with
  | nil => rfl
  | cons c ws => simp [readDigits, hw c rfl]

lemma readDigits_natDigs (n : Nat) : ∀ acc w,
    readDigits (natDigs n ++ w) acc =
      readDigits w (acc * 10 ^ (natDigs n).length + n) := by
  induction n using Nat.strong_induction_on with
  | _ n ih =>
    intro acc w
    by_cases h10 : n < 10
    · rw [natDigs.eq_def]
      simp only [if_pos h10, List.cons_append, List.nil_append, List.length_cons,
        List.length_nil, Nat.zero_add]
      rw [show readDigits (digitChar n :: w) acc
          = readDigits w (acc * 10 + ((digitChar n).toNat - 48)) from by
        simp [readDigits, digitChar_isDigit h10]]
      rw [digitChar_toNat h10]
      congr 1
      rw [pow_one]
      omega
    · rw [natDigs.eq_def]
      simp only [if_neg h10]
      rw [List.append_assoc]
      rw [ih (n / 10) (Nat.div_lt_self (by omega) (by omega)) acc
        ([digitChar (n % 10)] ++ w)]
      have hm : n % 10 < 10 := Nat.mod_lt n (by omega)
      simp only [List.singleton_append]
      rw [show readDigits (digitChar (n % 10) :: w)
            (acc * 10 ^ (natDigs (n / 10)).length + n / 10)
          = readDigits w ((acc * 10 ^ (natDigs (n / 10)).length + n / 10) * 10
              + (n % 10)) from by
        simp [readDigits, digitChar_isDigit hm, digitChar_toNat hm]]
      simp only [List.length_append, List.length_singleton]
      congr 1
      rw [pow_succ, Nat.add_mul, Nat.mul_assoc]
      omega

lemma textHere_eq_some {pat s s' : List Char} :
    textHere pat s = some s' ↔ s = pat ++ s' := by
  induction pat generalizing s with
  | nil => simp [textHere, eq_comm]
  | cons p ps ih =>
    cases s with
    | nil => simp [textHere]
    | cons c cs =>
      simp only [textHere, List.cons_append]
      split_ifs with hq
      · subst hq
        simp [ih]
      · simp [hq]

lemma textHere_single_ne {k c : Char} (h : c ≠ k) (w : List Char) :
    textHere [k] (c :: w) = none := by
  simp [textHere, h]

lemma headC_ne_marks {c : Char} (h : isHeadC c = true) :
    c ≠ chLam ∧ c ≠ chAt ∧ c ≠ chOp ∧ c ≠ chCl ∧ c ≠ chHash :=
  ⟨fun hEq => by subst hEq; revert h; decide,
   fun hEq => by subst hEq; revert h; decide,
   fun hEq => by subst hEq; revert h; decide,
   fun hEq => by subst hEq; revert h; decide,
   fun hEq => by subst hEq; revert h; decide⟩

lemma keyword_fail {x rest : List Char} {a b c : Char}
    (hx : specNameOk x = true) (hne : x ≠ [a, b, c])
    (hb : isFollowC b = false) (hc2 : isFollowC c = false)
    (hgf : goodFollow rest = true) :
    textHere [a, b, c, ' '] (x ++ rest) = none := by
  cases hth : textHere [a, b, c, ' '] (x ++ rest) with
  | none => rfl
  | some s' =>
    exfalso
    rw [textHere_eq_some] at hth
    cases x with
    | nil => simp [specNameOk] at hx
    | cons c1 x1 =>
      cases x1 with
      | nil =>
        simp only [List.cons_append, List.nil_append, List.cons.injEq] at hth
        obtain ⟨rfl, hr⟩ := hth
        rw [hr] at hgf
        simp only [goodFollow] at hgf
        rw [hgf] at hb
        cases hb
      | cons c2 x2 =>
        cases x2 with
        | nil =>
          simp only [List.cons_append, List.nil_append, List.cons.injEq] at hth
          obtain ⟨rfl, rfl, hr⟩ := hth
          rw [hr] at hgf
          simp only [goodFollow] at hgf
          rw [hgf] at hc2
          cases hc2
        | cons c3 x3 =>
          cases x3 with
          | nil =>
            simp only [List.cons_append, List.nil_append, List.cons.injEq] at hth
            obtain ⟨rfl, rfl, rfl, _⟩ := hth
            exact hne rfl
          | cons c4 x4 =>
            simp only [List.cons_append, List.cons.injEq] at hth
            obtain ⟨_, _, _, rfl, _⟩ := hth
            simp only [specNameOk, List.all_cons, Bool.and_eq_true] at hx
            exact absurd hx.2.2.2.1 (by decide)

lemma headStop {c0 : Char} (h : isNameC c0 = false) (t : List Char) :
    ∀ c, (c0 :: t).head? = some c → isNameC c = false := by
  intro c hc
  obtain rfl : c0 = c := Option.some.inj hc
  exact h

lemma digStop {c0 : Char} (h : isDigitC c0 = false) (t : List Char) :
    ∀ c, (c0 :: t).head? = some c → isDigitC c = false := by
  intro c hc
  obtain rfl : c0 = c := Option.some.inj hc
  exact h

lemma natDigs_head (n : Nat) : ∃ c cs, natDigs n = c :: cs ∧ isDigitC c = true := by
  induction n using Nat.strong_induction_on with
  | _ n ih =>
    rw [natDigs.eq_def]
    by_cases h10 : n < 10
    · exact ⟨digitChar n, [], by simp [h10], digitChar_isDigit h10⟩
    · obtain ⟨c, cs, hEq, hc⟩ := ih (n / 10) (Nat.div_lt_self (by omega) (by omega))
      exact ⟨c, cs ++ [digitChar (n % 10)], by simp [h10, hEq], hc⟩

lemma parseLabel_digs {l : Nat} (hl : l < 2 ^ 64) {w : List Char}
    (hw : ∀ c, w.head? = some c → isDigitC c = false) :
    parseLabel (chHash :: (natDigs l ++ w)) = some (l, w) := by
  obtain ⟨c, cs, hEq, hc⟩ := natDigs_head l
  have hrd := readDigits_natDigs l 0 w
  rw [readDigits_stop hw] at hrd
  simp only [parseLabel, consume]
  rw [skip_cons_nonws (by decide)]
  rw [show textHere [chHash] (chHash :: (natDigs l ++ w)) = some (natDigs l ++ w) from by
    simp [textHere]]
  rw [optBind_eq_some]
  refine ⟨natDigs l ++ w, rfl, ?_⟩
  have hform : natDigs l ++ w = c :: (cs ++ w) := by rw [hEq, List.cons_append]
  rw [Nat.zero_mul, Nat.zero_add] at hrd
  rw [hform] at hrd
  simp only [hform, hc, if_true, hrd]
  rw [if_pos hl]

lemma name1_pretty {x w : List Char} (hx : specNameOk x = true)
    (hw : ∀ c, w.head? = some c → isNameC c = false) :
    name1 (x ++ w) = some (x, w) := by
  have hsk : skip (x ++ w) = x ++ w := by
    cases x with
    | nil => simp [specNameOk] at hx
    | cons c cs =>
      have hcc : isHeadC c = true := by
        simpa [specNameOk, Bool.and_eq_true] using (fun h => h.1)
          (by simpa [specNameOk, Bool.and_eq_true] using hx :
            isHeadC c = true ∧ cs.all isNameC = true)
      rw [List.cons_append, skip_cons_nonws (headC_not_ws hcc)]
  simp only [name1, nameP, hsk, takeName_append hx hw]
  cases x with
  | nil => simp [specNameOk] at hx
  | cons c cs => rfl

lemma pretty_facts (t : Term) (h : wfT t = true) (w : List Char) :
    skip (prettyT t ++ w) = prettyT t ++ w ∧
    textHere [chCl] (prettyT t ++ w) = none := by
  cases t with
  | var x =>
    simp only [wfT, wfName, Bool.and_eq_true, decide_eq_true_eq] at h
    obtain ⟨⟨hsp, _⟩, _⟩ := h
    cases x with
    | nil => simp [specNameOk] at hsp
    | cons c cs =>
      simp only [specNameOk, Bool.and_eq_true] at hsp
      simp only [prettyT, List.cons_append]
      exact ⟨skip_cons_nonws (headC_not_ws hsp.1) _,
        textHere_single_ne (headC_ne_marks hsp.1).2.2.2.1 _⟩
  | lam x e =>
    simp only [prettyT, List.cons_append]
    exact ⟨skip_cons_nonws (by decide) _, textHere_single_ne (by decide) _⟩
  | app f a =>
    simp only [prettyT, List.cons_append]
    exact ⟨skip_cons_nonws (by decide) _, textHere_single_ne (by decide) _⟩
  | sup l a b =>
    simp only [prettyT, List.cons_append]
    exact ⟨skip_cons_nonws (by decide) _, textHere_single_ne (by decide) _⟩
  | dup l x y e k =>
    simp only [prettyT, List.cons_append]
    exact ⟨skip_cons_nonws (by decide) _, textHere_single_ne (by decide) _⟩
  | letE x e k =>
    simp only [prettyT, List.cons_append]
    exact ⟨skip_cons_nonws (by decide) _, textHere_single_ne (by decide) _⟩

/-- Fuel sufficient for `parseTerm` on the printed form of a term. -/
def fNeed : Term → Nat
  | .var _ => 1
  | .lam _ e => fNeed e + 4
  | .app f a => fNeed f + fNeed a + 4
  | .sup _ a b => fNeed a + fNeed b + 1
  | .dup _ _ _ e k => fNeed e + fNeed k + 4
  | .letE _ e k => fNeed e + fNeed k + 4

lemma textHere_cons_ne {p c : Char} {ps cs : List Char} (h : c ≠ p) :
    textHere (p :: ps) (c :: cs) = none := by
  simp [textHere, h]

lemma textHere_single_eq (k : Char) (w : List Char) : textHere [k] (k :: w) = some w := by
  simp [textHere]

lemma skip_idem (s : List Char) : skip (skip s) = skip s := by
  induction s with
  | nil => rfl
  | cons c cs ih =>
    by_cases hw : isWsC c = true
    · simp [skip, hw, ih]
    · simp [skip, hw]

lemma parseTerm_skip (F : Nat) (s : List Char) :
    parseTerm (F + 1) s = parseTerm (F + 1) (skip s) := by
  simp only [parseTerm, skip_idem]

lemma someBind {α β : Type} (a : α) (f : α → Option β) :
    (some a >>= f) = f a := rfl

lemma goodFollow_cons {c : Char} (h : isFollowC c = true) (w : List Char) :
    goodFollow (c :: w) = true := by
  simp [goodFollow, h]

lemma wfName_spec {x : Name} (h : wfName x = true) : specNameOk x = true := by
  simp only [wfName, Bool.and_eq_true] at h
  exact h.1.1

lemma nameP_pretty {s x w : List Char} (hx : specNameOk x = true)
    (hw : ∀ c, w.head? = some c → isNameC c = false) (hs : skip s = x ++ w) :
    nameP s = (x, w) := by
  simp only [nameP, hs, takeName_append hx hw]

lemma name1_pretty2 {s x w : List Char} (hx : specNameOk x = true)
    (hw : ∀ c, w.head? = some c → isNameC c = false) (hs : skip s = x ++ w) :
    name1 s = some (x, w) := by
  simp only [name1, nameP_pretty hx hw hs]
  cases x with
  | nil => simp [specNameOk] at hx
  | cons c cs => rfl

lemma consume_single {k : Char} {s w : List Char} (hs : skip s = k :: w) :
    consume [k] s = some w := by
  simp only [consume, hs, textHere_single_eq]

lemma text_single {k : Char} {s w : List Char} (hs : skip s = k :: w) :
    text [k] s = (w, true) := by
  simp only [text, hs, textHere_single_eq]

lemma parseTerm_at_op (F : Nat) (w : List Char) :
    parseTerm (F + 1) (chOp :: w) = (do
      let (ts, s2) ← parseApps F w
      match ts with
      | [] => none
      | t0 :: tr => pure (tr.foldl Term.app t0, s2)) := rfl

lemma parseTerm_at_lam (F : Nat) (w : List Char) :
    parseTerm (F + 1) (chLam :: w) = (do
      let (x, s2) := nameP w
      let (e, s3) ← parseTerm F s2
      pure (Term.lam x e, s3)) := rfl

lemma parseTerm_at_hash (F : Nat) (w : List Char) :
    parseTerm (F + 1) (chHash :: w) = (do
      let (l, s1) ← parseLabel (chHash :: w)
      let s2 ← consume [chLb] s1
      let (a, s3) ← parseTerm F s2
      let (b, s4) ← parseTerm F s3
      let s5 ← consume [chRb] s4
      pure (Term.sup l a b, s5)) := rfl

lemma parseTerm_at_let (F : Nat) (w : List Char) :
    parseTerm (F + 1) ('l' :: 'e' :: 't' :: ' ' :: w) = (do
      let (x, s2) ← name1 w
      let s3 ← consume [chEq] s2
      let (e, s4) ← parseTerm F s3
      let (s5, _) := text [chSemi] s4
      let (k, s6) ← parseTerm F s5
      pure (Term.letE x e k, s6)) := rfl

lemma parseTerm_at_dup (F : Nat) (w : List Char) :
    parseTerm (F + 1) ('d' :: 'u' :: 'p' :: ' ' :: w) = (do
      let (l, s2) ← parseLabel w
      let s3 ← consume [chLb] s2
      let (x, s4) ← name1 s3
      let (y, s5) ← name1 s4
      let s6 ← consume [chRb] s5
      let s7 ← consume [chEq] s6
      let (e, s8) ← parseTerm F s7
      let (s9, _) := text [chSemi] s8
      let (k, s10) ← parseTerm F s9
      pure (Term.dup l x y e k, s10)) := rfl

lemma parseApps_at_close (F : Nat) (w : List Char) :
    parseApps (F + 1) (chCl :: w) = some ([], w) := rfl

lemma parseApps_not_close (F : Nat) {w w' : List Char}
    (h1 : skip w = w') (h2 : textHere [chCl] w' = none) :
    parseApps (F + 1) w = (do
      let (t, s1) ← parseTerm F w
      let (ts, s2) ← parseApps F s1
      pure (t :: ts, s2)) := by
  simp only [parseApps, text, h1, h2]

set_option maxHeartbeats 1000000

lemma skip_name {x w : List Char} (hx : specNameOk x = true) : skip (x ++ w) = x ++ w := by
  cases x with
  | nil => simp [specNameOk] at hx
  | cons c cs =>
    simp only [specNameOk, Bool.and_eq_true] at hx
    rw [List.cons_append]
    exact skip_cons_nonws (headC_not_ws hx.1) _

lemma parseTerm_pretty :
    ∀ (t : Term) (fuel : Nat) (s rest : List Char),
      wfT t = true → goodFollow rest = true → fNeed t ≤ fuel →
      skip s = prettyT t ++ rest →
      parseTerm fuel s = some (t, rest) := by
  intro t
  induction t with
  | var x =>
    intro fuel s rest hwf hgf hfu hs
    simp only [fNeed] at hfu
    obtain ⟨F, rfl⟩ : ∃ F, fuel = F + 1 := ⟨fuel - 1, by omega⟩
    simp only [wfT, wfName, Bool.and_eq_true, decide_eq_true_eq] at hwf
    obtain ⟨⟨hsp, hnl⟩, hnd⟩ := hwf
    obtain ⟨c, cs, rfl⟩ : ∃ c cs, x = c :: cs := by
      cases x with
      | nil => simp [specNameOk] at hsp
      | cons c cs => exact ⟨c, cs, rfl⟩
    have hcc : isHeadC c = true ∧ cs.all isNameC = true := by
      simpa [specNameOk, Bool.and_eq_true] using hsp
    have hmarks := headC_ne_marks hcc.1
    have hkl : textHere ['l', 'e', 't', ' '] (c :: (cs ++ rest)) = none := by
      rw [← List.cons_append]
      exact keyword_fail hsp hnl (by decide) (by decide) hgf
    have hkd : textHere ['d', 'u', 'p', ' '] (c :: (cs ++ rest)) = none := by
      rw [← List.cons_append]
      exact keyword_fail hsp hnd (by decide) (by decide) hgf
    have htn : takeName (c :: (cs ++ rest)) = (c :: cs, rest) := by
      rw [← List.cons_append]
      exact takeName_append hsp (goodFollow_nameStop hgf)
    simp only [prettyT, List.cons_append] at hs
    rw [parseTerm_skip, hs]
    simp only [parseTerm, skip_cons_nonws (headC_not_ws hcc.1), kwLet, kwDup, hkl, hkd,
      textHere_cons_ne hmarks.1, textHere_cons_ne hmarks.2.1,
      textHere_cons_ne hmarks.2.2.1, textHere_cons_ne hmarks.2.2.2.2,
      hcc.1, if_true, htn]
  | lam x e ihe =>
    intro fuel s rest hwf hgf hfu hs
    simp only [wfT, Bool.and_eq_true] at hwf
    obtain ⟨hwx, hwfe⟩ := hwf
    have hsp := wfName_spec hwx
    simp only [fNeed] at hfu
    obtain ⟨F, rfl⟩ : ∃ F, fuel = F + 1 := ⟨fuel - 1, by omega⟩
    obtain ⟨K, rfl⟩ : ∃ K, F = K + 1 := ⟨F - 1, by omega⟩
    obtain ⟨K2, rfl⟩ : ∃ K2, K = K2 + 1 := ⟨K - 1, by omega⟩
    simp only [prettyT, List.cons_append, List.append_assoc, List.nil_append] at hs
    rw [parseTerm_skip, hs, parseTerm_at_op]
    have h1 : skip (chLam :: (x ++ ' ' :: (prettyT e ++ chCl :: rest)))
        = chLam :: (x ++ ' ' :: (prettyT e ++ chCl :: rest)) :=
      skip_cons_nonws (by decide) _
    have hx1 : skip (x ++ ' ' :: (prettyT e ++ chCl :: rest))
        = x ++ ' ' :: (prettyT e ++ chCl :: rest) := skip_name hsp
    have hske : skip (' ' :: (prettyT e ++ chCl :: rest)) = prettyT e ++ chCl :: rest := by
      rw [skip_space]
      exact (pretty_facts e hwfe _).1
    simp only [parseApps_not_close (K2 + 1) h1
        (textHere_cons_ne (show chLam ≠ chCl from by decide)),
      parseTerm_at_lam, nameP_pretty hsp (headStop (by decide) _) hx1,
      ihe K2 _ (chCl :: rest) hwfe (goodFollow_cons (by decide) _) (by omega) hske,
      someBind, Option.pure_def, parseApps_at_close, List.foldl]
  | app f a ihf iha =>
    intro fuel s rest hwf hgf hfu hs
    simp only [wfT, Bool.and_eq_true] at hwf
    obtain ⟨hwff, hwfa⟩ := hwf
    simp only [fNeed] at hfu
    obtain ⟨F, rfl⟩ : ∃ F, fuel = F + 1 := ⟨fuel - 1, by omega⟩
    obtain ⟨K, rfl⟩ : ∃ K, F = K + 1 := ⟨F - 1, by omega⟩
    obtain ⟨K2, rfl⟩ : ∃ K2, K = K2 + 1 := ⟨K - 1, by omega⟩
    obtain ⟨K3, rfl⟩ : ∃ K3, K2 = K3 + 1 := ⟨K2 - 1, by omega⟩
    simp only [prettyT, List.cons_append, List.append_assoc, List.nil_append] at hs
    rw [parseTerm_skip, hs, parseTerm_at_op]
    have hpf := pretty_facts f hwff (' ' :: (prettyT a ++ chCl :: rest))
    rw [parseApps_not_close (K3 + 1 + 1) hpf.1 hpf.2]
    rw [ihf (K3 + 1 + 1) _ (' ' :: (prettyT a ++ chCl :: rest)) hwff
      (goodFollow_cons (by decide) _) (by omega) hpf.1]
    simp only [someBind]
    have hpa := pretty_facts a hwfa (chCl :: rest)
    have hsk2 : skip (' ' :: (prettyT a ++ chCl :: rest)) = prettyT a ++ chCl :: rest := by
      rw [skip_space]
      exact hpa.1
    rw [parseApps_not_close (K3 + 1) hsk2 hpa.2]
    rw [iha (K3 + 1) _ (chCl :: rest) hwfa (goodFollow_cons (by decide) _) (by omega) hsk2]
    simp only [someBind]
    rw [parseApps_at_close K3]
    simp only [someBind, Option.pure_def, List.foldl]
  | sup l a b iha ihb =>
    intro fuel s rest hwf hgf hfu hs
    simp only [wfT, Bool.and_eq_true, decide_eq_true_eq] at hwf
    obtain ⟨⟨hl, hwa⟩, hwb⟩ := hwf
    simp only [fNeed] at hfu
    obtain ⟨F, rfl⟩ : ∃ F, fuel = F + 1 := ⟨fuel - 1, by omega⟩
    simp only [prettyT, List.cons_append, List.append_assoc, List.nil_append] at hs
    rw [parseTerm_skip, hs, parseTerm_at_hash]
    have hlab := parseLabel_digs hl (digStop (show isDigitC chLb = false from by decide)
      (prettyT a ++ ' ' :: (prettyT b ++ chRb :: rest)))
    have hcb : consume [chLb] (chLb :: (prettyT a ++ ' ' :: (prettyT b ++ chRb :: rest)))
        = some (prettyT a ++ ' ' :: (prettyT b ++ chRb :: rest)) :=
      consume_single (skip_cons_nonws (by decide) _)
    have hA := iha F _ (' ' :: (prettyT b ++ chRb :: rest)) hwa
      (goodFollow_cons (by decide) _) (by omega) (pretty_facts a hwa _).1
    have hskb : skip (' ' :: (prettyT b ++ chRb :: rest)) = prettyT b ++ chRb :: rest := by
      rw [skip_space]
      exact (pretty_facts b hwb _).1
    have hB := ihb F _ (chRb :: rest) hwb (goodFollow_cons (by decide) _) (by omega) hskb
    have hcr : consume [chRb] (chRb :: rest) = some rest :=
      consume_single (skip_cons_nonws (by decide) _)
    simp only [hlab, hcb, hA, hB, hcr, someBind, Option.pure_def]
  | dup l x y e k ihe ihk =>
    intro fuel s rest hwf hgf hfu hs
    simp only [wfT, Bool.and_eq_true, decide_eq_true_eq] at hwf
    obtain ⟨⟨⟨⟨hl, hwx⟩, hwy⟩, hwfe⟩, hwfk⟩ := hwf
    have hspx := wfName_spec hwx
    have hspy := wfName_spec hwy
    simp only [fNeed] at hfu
    obtain ⟨F, rfl⟩ : ∃ F, fuel = F + 1 := ⟨fuel - 1, by omega⟩
    obtain ⟨K, rfl⟩ : ∃ K, F = K + 1 := ⟨F - 1, by omega⟩
    obtain ⟨K2, rfl⟩ : ∃ K2, K = K2 + 1 := ⟨K - 1, by omega⟩
    simp only [prettyT, List.cons_append, List.append_assoc, List.nil_append] at hs
    rw [parseTerm_skip, hs, parseTerm_at_op]
    have h1 : skip ('d' :: 'u' :: 'p' :: ' ' :: chHash :: (natDigs l ++ chLb ::
          (x ++ ' ' :: (y ++ chRb :: ' ' :: chEq :: ' ' :: (prettyT e ++ chSemi :: ' ' ::
            (prettyT k ++ chCl :: rest))))))
        = 'd' :: 'u' :: 'p' :: ' ' :: chHash :: (natDigs l ++ chLb ::
          (x ++ ' ' :: (y ++ chRb :: ' ' :: chEq :: ' ' :: (prettyT e ++ chSemi :: ' ' ::
            (prettyT k ++ chCl :: rest))))) :=
      skip_cons_nonws (by decide) _
    have hlab := parseLabel_digs hl (digStop (show isDigitC chLb = false from by decide)
      (x ++ ' ' :: (y ++ chRb :: ' ' :: chEq :: ' ' :: (prettyT e ++ chSemi :: ' ' ::
        (prettyT k ++ chCl :: rest)))))
    have hcb : consume [chLb] (chLb :: (x ++ ' ' :: (y ++ chRb :: ' ' :: chEq :: ' ' ::
          (prettyT e ++ chSemi :: ' ' :: (prettyT k ++ chCl :: rest)))))
        = some (x ++ ' ' :: (y ++ chRb :: ' ' :: chEq :: ' ' ::
          (prettyT e ++ chSemi :: ' ' :: (prettyT k ++ chCl :: rest)))) :=
      consume_single (skip_cons_nonws (by decide) _)
    have hn1 : name1 (x ++ ' ' :: (y ++ chRb :: ' ' :: chEq :: ' ' ::
          (prettyT e ++ chSemi :: ' ' :: (prettyT k ++ chCl :: rest))))
        = some (x, ' ' :: (y ++ chRb :: ' ' :: chEq :: ' ' ::
          (prettyT e ++ chSemi :: ' ' :: (prettyT k ++ chCl :: rest)))) :=
      name1_pretty2 hspx (headStop (by decide) _) (skip_name hspx)
    have hn2 : name1 (' ' :: (y ++ chRb :: ' ' :: chEq :: ' ' ::
          (prettyT e ++ chSemi :: ' ' :: (prettyT k ++ chCl :: rest))))
        = some (y, chRb :: ' ' :: chEq :: ' ' ::
          (prettyT e ++ chSemi :: ' ' :: (prettyT k ++ chCl :: rest))) :=
      name1_pretty2 hspy (headStop (show isNameC chRb = false from by decide) _) (by
        rw [skip_space]
        exact skip_name hspy)
    have hcrb : consume [chRb] (chRb :: ' ' :: chEq :: ' ' ::
          (prettyT e ++ chSemi :: ' ' :: (prettyT k ++ chCl :: rest)))
        = some (' ' :: chEq :: ' ' ::
          (prettyT e ++ chSemi :: ' ' :: (prettyT k ++ chCl :: rest))) :=
      consume_single (skip_cons_nonws (by decide) _)
    have hceq : consume [chEq] (' ' :: chEq :: ' ' ::
          (prettyT e ++ chSemi :: ' ' :: (prettyT k ++ chCl :: rest)))
        = some (' ' :: (prettyT e ++ chSemi :: ' ' :: (prettyT k ++ chCl :: rest))) :=
      consume_single (by
        rw [skip_space]
        exact skip_cons_nonws (by decide) _)
    have hske : skip (' ' :: (prettyT e ++ chSemi :: ' ' :: (prettyT k ++ chCl :: rest)))
        = prettyT e ++ chSemi :: ' ' :: (prettyT k ++ chCl :: rest) := by
      rw [skip_space]
      exact (pretty_facts e hwfe _).1
    have hE := ihe K2 _ (chSemi :: ' ' :: (prettyT k ++ chCl :: rest)) hwfe
      (goodFollow_cons (by decide) _) (by omega) hske
    have hsemi : text [chSemi] (chSemi :: ' ' :: (prettyT k ++ chCl :: rest))
        = (' ' :: (prettyT k ++ chCl :: rest), true) :=
      text_single (skip_cons_nonws (by decide) _)
    have hskk : skip (' ' :: (prettyT k ++ chCl :: rest)) = prettyT k ++ chCl :: rest := by
      rw [skip_space]
      exact (pretty_facts k hwfk _).1
    have hK := ihk K2 _ (chCl :: rest) hwfk (goodFollow_cons (by decide) _) (by omega) hskk
    simp only [parseApps_not_close (K2 + 1) h1
        (textHere_cons_ne (show 'd' ≠ chCl from by decide)),
      parseTerm_at_dup, hlab, hcb, hn1, hn2, hcrb, hceq, hE, hsemi, hK,
      someBind, Option.pure_def, parseApps_at_close, List.foldl]
  | letE x e k ihe ihk =>
    intro fuel s rest hwf hgf hfu hs
    simp only [wfT, Bool.and_eq_true] at hwf
    obtain ⟨⟨hwx, hwfe⟩, hwfk⟩ := hwf
    have hsp := wfName_spec hwx
    simp only [fNeed] at hfu
    obtain ⟨F, rfl⟩ : ∃ F, fuel = F + 1 := ⟨fuel - 1, by omega⟩
    obtain ⟨K, rfl⟩ : ∃ K, F = K + 1 := ⟨F - 1, by omega⟩
    obtain ⟨K2, rfl⟩ : ∃ K2, K = K2 + 1 := ⟨K - 1, by omega⟩
    simp only [prettyT, List.cons_append, List.append_assoc, List.nil_append] at hs
    rw [parseTerm_skip, hs, parseTerm_at_op]
    have h1 : skip ('l' :: 'e' :: 't' :: ' ' :: (x ++ ' ' :: chEq :: ' ' ::
          (prettyT e ++ chSemi :: ' ' :: (prettyT k ++ chCl :: rest))))
        = 'l' :: 'e' :: 't' :: ' ' :: (x ++ ' ' :: chEq :: ' ' ::
          (prettyT e ++ chSemi :: ' ' :: (prettyT k ++ chCl :: rest))) :=
      skip_cons_nonws (by decide) _
    have hn1 : name1 (x ++ ' ' :: chEq :: ' ' ::
          (prettyT e ++ chSemi :: ' ' :: (prettyT k ++ chCl :: rest)))
        = some (x, ' ' :: chEq :: ' ' ::
          (prettyT e ++ chSemi :: ' ' :: (prettyT k ++ chCl :: rest))) :=
      name1_pretty2 hsp (headStop (by decide) _) (skip_name hsp)
    have hceq : consume [chEq] (' ' :: chEq :: ' ' ::
          (prettyT e ++ chSemi :: ' ' :: (prettyT k ++ chCl :: rest)))
        = some (' ' :: (prettyT e ++ chSemi :: ' ' :: (prettyT k ++ chCl :: rest))) :=
      consume_single (by
        rw [skip_space]
        exact skip_cons_nonws (by decide) _)
    have hske : skip (' ' :: (prettyT e ++ chSemi :: ' ' :: (prettyT k ++ chCl :: rest)))
        = prettyT e ++ chSemi :: ' ' :: (prettyT k ++ chCl :: rest) := by
      rw [skip_space]
      exact (pretty_facts e hwfe _).1
    have hE := ihe K2 _ (chSemi :: ' ' :: (prettyT k ++ chCl :: rest)) hwfe
      (goodFollow_cons (by decide) _) (by omega) hske
    have hsemi : text [chSemi] (chSemi :: ' ' :: (prettyT k ++ chCl :: rest))
        = (' ' :: (prettyT k ++ chCl :: rest), true) :=
      text_single (skip_cons_nonws (by decide) _)
    have hskk : skip (' ' :: (prettyT k ++ chCl :: rest)) = prettyT k ++ chCl :: rest := by
      rw [skip_space]
      exact (pretty_facts k hwfk _).1
    have hK := ihk K2 _ (chCl :: rest) hwfk (goodFollow_cons (by decide) _) (by omega) hskk
    simp only [parseApps_not_close (K2 + 1) h1
        (textHere_cons_ne (show 'l' ≠ chCl from by decide)),
      parseTerm_at_let, hn1, hceq, hE, hsemi, hK,
      someBind, Option.pure_def, parseApps_at_close, List.foldl]

lemma fNeed_le (t : Term) : fNeed t ≤ 2 * (prettyT t).length + 1 := by
  induction t with
  | var x =>
    simp only [fNeed, prettyT]
    omega
  | lam x e ih =>
    simp only [fNeed, prettyT, List.length_cons, List.length_append]
    omega
  | app f a ihf iha =>
    simp only [fNeed, prettyT, List.length_cons, List.length_append]
    omega
  | sup l a b iha ihb =>
    simp only [fNeed, prettyT, List.length_cons, List.length_append]
    omega
  | dup l x y e k ihe ihk =>
    simp only [fNeed, prettyT, List.length_cons, List.length_append]
    omega
  | letE x e k ihe ihk =>
    simp only [fNeed, prettyT, List.length_cons, List.length_append]
    omega

/-- C8 (amended).  Round trip of the pretty printer and parser: for
every term whose names are grammar-valid (`[_a-z$][_a-zA-Z0-9]*`) and
distinct from the keywords `let` and `dup`, and whose labels fit in a
`u64`, parsing the printed rendering consumes the whole input and
returns the term itself.  The keyword restriction is necessary: see the
counterexample, where the grammar-valid variable name `let` derails the
parser. -/
theorem c8_roundtrip {t : Term} (h : wfT t = true) :
    parseTop (prettyT t) = some t := by
  have hs : skip (prettyT t) = prettyT t ++ ([] : List Char) := by
    simpa using (pretty_facts t h []).1
  have hmain := parseTerm_pretty t (2 * (prettyT t).length + 2) (prettyT t) [] h rfl
    (by have := fNeed_le t; omega) hs
  simp only [parseTop, hmain]
  rfl

/-- Witness for C8: the round trip holds on the shared-dup example term
`tSharedDup`. -/
theorem c8_roundtrip_witness :
    wfT tSharedDup = true ∧ parseTop (prettyT tSharedDup) = some tSharedDup :=
  ⟨by decide, c8_roundtrip (by decide)⟩

/-- C8 counterexample: `let` satisfies the spec's `name` grammar, yet
the printed form of `(let x)` — the application of the variable `let`
to `x` — fails to parse, because the `let` alternative's guard fires on
the keyword followed by a space and its body then errors out. -/
theorem c8_keyword_counterexample :
    specNameOk ['l', 'e', 't'] = true ∧
    parseTop (prettyT (.app (.var ['l', 'e', 't']) (.var ['x']))) = none := by
  exact ⟨by decide, by decide⟩
